import Mathlib

/-!
Verification of the incremental indexing and duplicate-clustering core of the
`codebase` tool against its natural-language specification.

The Go source is shallowly embedded: pure functions become Lean functions over
exact numbers (`ℚ` in place of `float64`, `Int` in place of `int`), Go maps
become association lists with replace-on-insert semantics, and the effectful
indexing run becomes a pure function of an explicit environment describing the
filesystem, the content-hash function and path normalization.
-/

namespace Codebase

/-! ## Data model (internal/models/models.go) -/

/-- Embeds `models.CodeChunkPayload`: the durable unit stored in the vector
store for one extracted code span. -/
structure CodeChunkPayload where
  filePath : String
  language : String
  nodeType : String
  nodeName : String
  startLine : Int
  endLine : Int
  codeHash : String
  content : String
  packageName : String
  imports : List String
  signature : String
  receiver : String
  doc : String
  callees : List String
  paramTypes : List String
  returnTypes : List String
  hasErrorReturn : Bool
  deriving DecidableEq, Inhabited

/-- Embeds `models.PairCandidate`: two payloads plus their similarity score
(`float64` embedded as `ℚ`). -/
structure PairCandidate where
  A : CodeChunkPayload
  B : CodeChunkPayload
  score : ℚ
  deriving DecidableEq, Inhabited

/-- Embeds `models.DuplicateGroup`. -/
structure DuplicateGroup where
  chunks : List CodeChunkPayload
  avgScore : ℚ
  reason : String
  deriving DecidableEq, Inhabited

/-! ## utils.CosineSim (internal/utils/utils.go, lines 62-76)

The Go loop accumulates three running sums over the paired components; they
are embedded as the three list sums below. -/

/-- Running sum `dotProduct += a[i] * b[i]` of `utils.CosineSim`. -/
def dotAcc (a b : List ℚ) : ℚ :=
  ((a.zip b).map fun p => p.1 * p.2).sum

/-- Running sum `normA += a[i] * a[i]` (resp. `normB`) of `utils.CosineSim`:
the SUM OF SQUARES of the components, not the Euclidean norm. -/
def normAcc (a : List ℚ) : ℚ :=
  (a.map fun x => x * x).sum

/-- Embeds `utils.CosineSim`: returns 0 on length mismatch or when either
sum-of-squares accumulator is zero; otherwise divides the dot product by the
product `normA * normB` of the two sums of squares (the source takes no
square roots). -/
def CosineSim (a b : List ℚ) : ℚ :=
  if a.length ≠ b.length then 0
  else
    let dotProduct := dotAcc a b
    let normA := normAcc a
    let normB := normAcc b
    if normA = 0 ∨ normB = 0 then 0
    else dotProduct / (normA * normB)

/-- Modelled from the spec: true cosine similarity
`score = dot(a,b) / (||a|| * ||b||)`, the spec's stated formula for the score
`FindDuplicates` assigns to a pair, with genuine Euclidean norms (square
roots). Stated over `ℝ` because the norms are irrational in general. This is
the spec-side definition to be compared with the source's `CosineSim`. -/
noncomputable def specCosineSim (a b : List ℚ) : ℝ :=
  (((a.zip b).map fun p => (p.1 : ℝ) * (p.2 : ℝ)).sum) /
    (Real.sqrt ((a.map fun x : ℚ => (x : ℝ) * (x : ℝ)).sum) *
     Real.sqrt ((b.map fun x : ℚ => (x : ℝ) * (x : ℝ)).sum))

/-! ## Analyzer pair generation (internal/analyzer/analyzer.go) -/

/-- Embeds `analyzer.isTrivialPair` (analyzer.go lines 123-137): a pair is
trivial when both chunks live in the same file and share a start or end line,
or when either chunk spans fewer than 3 lines (`lines = end - start + 1`). -/
def isTrivialPair (a b : CodeChunkPayload) : Bool :=
  if a.filePath = b.filePath ∧ (a.startLine = b.startLine ∨ a.endLine = b.endLine) then
    true
  else if a.endLine - a.startLine + 1 < 3 ∨ b.endLine - b.startLine + 1 < 3 then
    true
  else
    false

/-- Embeds the candidate-generation double loop of `analyzer.FindDuplicates`
(analyzer.go lines 31-43): for every index pair `i < j` the similarity score
is computed with `utils.CosineSim`, and the pair is appended exactly when the
score reaches the threshold and the pair is not trivial. -/
def pairCandidates (chunks : List CodeChunkPayload) (vectors : List (List ℚ))
    (threshold : ℚ) : List PairCandidate :=
  (List.range vectors.length).flatMap fun i =>
    (List.range vectors.length).filterMap fun j =>
      if i < j then
        let score := CosineSim (vectors.getD i []) (vectors.getD j [])
        if threshold ≤ score ∧ ¬ (isTrivialPair (chunks.getD i default) (chunks.getD j default) = true) then
          some { A := chunks.getD i default, B := chunks.getD j default, score := score }
        else
          none
      else
        none

/-- Builds a sample payload with the given file path, line range and content
fingerprint (remaining fields defaulted) for concrete instances. -/
def mkChunk (fp : String) (s e : Int) (h : String) : CodeChunkPayload :=
  { filePath := fp, language := "go", nodeType := "function", nodeName := "f",
    startLine := s, endLine := e, codeHash := h, content := "c",
    packageName := "", imports := [], signature := "", receiver := "",
    doc := "", callees := [], paramTypes := [], returnTypes := [],
    hasErrorReturn := false }

/-- Sample chunk X of the spec's clustering-transitivity instance. -/
def chunkX : CodeChunkPayload := mkChunk "a.go" 1 10 "x"

/-- Sample chunk Y of the spec's clustering-transitivity instance. -/
def chunkY : CodeChunkPayload := mkChunk "b.go" 1 10 "y"

/-- Sample chunk Z of the spec's clustering-transitivity instance. -/
def chunkZ : CodeChunkPayload := mkChunk "c.go" 1 10 "z"

/-- The confirmed pairs (X,Y,0.95) and (Y,Z,0.93) of the spec's
clustering-transitivity instance. -/
def pairsXYZ : List PairCandidate :=
  [{ A := chunkX, B := chunkY, score := 19/20 },
   { A := chunkY, B := chunkZ, score := 93/100 }]

/-! ## Go map embedding

Go maps (`map[string]V`) are embedded as association lists with a single
binding per key: assignment replaces in place and appends otherwise, and a
missing key reads the zero value. -/

/-- Go map read `m[k]` with zero value `dflt` for a missing key. -/
def mapGet {α : Type} (m : List (String × α)) (dflt : α) (k : String) : α :=
  match m.find? (fun e => e.1 = k) with
  | some e => e.2
  | none => dflt

/-- Go map read `v, ok := m[k]` (`none` when the key is absent). -/
def mapFind? {α : Type} (m : List (String × α)) (k : String) : Option α :=
  (m.find? (fun e => e.1 = k)).map (fun e => e.2)

/-- Go map write `m[k] = v`: replaces the binding in place, appends if new. -/
def mapSet {α : Type} (m : List (String × α)) (k : String) (v : α) :
    List (String × α) :=
  if m.any (fun e => e.1 = k) then
    m.map (fun e => if e.1 = k then (k, v) else e)
  else
    m ++ [(k, v)]

/-- Go map membership `_, ok := m[k]`. -/
def mapHas {α : Type} (m : List (String × α)) (k : String) : Bool :=
  m.any (fun e => e.1 = k)

/-- The key list of a Go map (`for k := range m`). -/
def mapKeys {α : Type} (m : List (String × α)) : List String :=
  m.map Prod.fst

/-! ## Union-find clustering (internal/analyzer/analyzer.go lines 139-227)

`buildDuplicateGroups` keeps `parent`/`rank` maps keyed by content
fingerprint, with recursive path-compressing `find` and union-by-rank. The
Go recursion in `find` terminates because the parent map is a forest; the
embedding makes this explicit with a fuel argument, always called with fuel
equal to the size of the map, which is proved sufficient below. -/

/-- Embeds the closure `find` of `buildDuplicateGroups` (analyzer.go lines
147-153), with path compression: if `parent[x] != x` then
`parent[x] = find(parent[x])`; returns `parent[x]` and the updated map. -/
def ufFind (fuel : Nat) (parent : List (String × String)) (x : String) :
    String × List (String × String) :=
  match fuel with
  | 0 => (mapGet parent "" x, parent)
  | fuel + 1 =>
    let px := mapGet parent "" x
    if px = x then (x, parent)
    else
      let r := ufFind fuel parent px
      (r.1, mapSet r.2 x r.1)

/-- Embeds the closure `union` of `buildDuplicateGroups` (analyzer.go lines
155-168): find both roots; if distinct, attach by rank, incrementing the
rank on ties. -/
def ufUnion (parent : List (String × String)) (rank : List (String × Int))
    (x y : String) :
    List (String × String) × List (String × Int) :=
  let fx := ufFind parent.length parent x
  let fy := ufFind fx.2.length fx.2 y
  let px := fx.1
  let py := fy.1
  let parent2 := fy.2
  if px = py then (parent2, rank)
  else if mapGet rank 0 px < mapGet rank 0 py then
    (mapSet parent2 px py, rank)
  else if mapGet rank 0 py < mapGet rank 0 px then
    (mapSet parent2 py px, rank)
  else
    (mapSet parent2 py px, mapSet rank px (mapGet rank 0 px + 1))

/-- The key-initialization step of the first loop of `buildDuplicateGroups`
(analyzer.go lines 173-180): an unseen fingerprint becomes its own parent
with rank 0. -/
def initKey (parent : List (String × String)) (rank : List (String × Int))
    (k : String) : List (String × String) × List (String × Int) :=
  if mapHas parent k then (parent, rank)
  else (mapSet parent k k, mapSet rank k 0)

/-- Embeds the body of the first loop of `buildDuplicateGroups` (analyzer.go
lines 170-182): initialize both fingerprints of the pair, then union them. -/
def unionStep (acc : List (String × String) × List (String × Int))
    (pair : PairCandidate) :
    List (String × String) × List (String × Int) :=
  let a1 := initKey acc.1 acc.2 pair.A.codeHash
  let a2 := initKey a1.1 a1.2 pair.B.codeHash
  ufUnion a2.1 a2.2 pair.A.codeHash pair.B.codeHash

/-- The first loop of `buildDuplicateGroups`: fold `unionStep` over the
pairs starting from empty parent and rank maps. -/
def unionPhase (pairs : List PairCandidate) :
    List (String × String) × List (String × Int) :=
  pairs.foldl unionStep ([], [])

/-- The mutable state of the grouping loops of `buildDuplicateGroups`: the
(path-compressed) parent map plus the `groups`, `groupScores` and `chunkMap`
maps. -/
structure GroupsState where
  parent : List (String × String)
  groups : List (String × DuplicateGroup)
  groupScores : List (String × List ℚ)
  chunkMap : List (String × CodeChunkPayload)

/-- Embeds the body of the second loop of `buildDuplicateGroups`
(analyzer.go lines 188-201): record both payloads in `chunkMap`, find the root of the first
payload's fingerprint, create the empty group for the root if missing, and
append the pair's score to the root's score list. -/
def scoreStep (st : GroupsState) (pair : PairCandidate) : GroupsState :=
  let cm1 := mapSet st.chunkMap pair.A.codeHash pair.A
  let cm2 := mapSet cm1 pair.B.codeHash pair.B
  let fr := ufFind st.parent.length st.parent pair.A.codeHash
  let root := fr.1
  let groups1 :=
    if mapHas st.groups root then st.groups
    else mapSet st.groups root
      { chunks := [], avgScore := 0,
        reason := "Code similarity detected based on semantic analysis" }
  let scores1 := mapSet st.groupScores root (mapGet st.groupScores [] root ++ [pair.score])
  { parent := fr.2, groups := groups1, groupScores := scores1, chunkMap := cm2 }

/-- The second loop of `buildDuplicateGroups`: fold `scoreStep` over the
pairs starting from the union phase's parent map and empty group maps. -/
def scorePhase (pairs : List PairCandidate)
    (parent0 : List (String × String)) : GroupsState :=
  pairs.foldl scoreStep
    { parent := parent0, groups := [], groupScores := [], chunkMap := [] }

/-- Embeds the body of the third loop of `buildDuplicateGroups` (analyzer.go
lines 203-208): for every fingerprint in `chunkMap`, find its root and append the
recorded payload to that root's group. -/
def memberStep (st : GroupsState) (e : String × CodeChunkPayload) : GroupsState :=
  let fr := ufFind st.parent.length st.parent e.1
  let root := fr.1
  let groups1 :=
    match mapFind? st.groups root with
    | some g => mapSet st.groups root { g with chunks := g.chunks ++ [e.2] }
    | none => st.groups
  { st with parent := fr.2, groups := groups1 }

/-- The third loop of `buildDuplicateGroups`: fold `memberStep` over the
entries of `chunkMap`. -/
def memberPhase (st0 : GroupsState) : GroupsState :=
  st0.chunkMap.foldl memberStep st0

/-- Embeds the body of the averaging loop of `buildDuplicateGroups`
(analyzer.go lines 210-219): a group's aggregate score becomes the sum of
its recorded edge scores divided by their count (when any were recorded). -/
def avgEntry (sc : List (String × List ℚ)) (e : String × DuplicateGroup) :
    String × DuplicateGroup :=
  match mapFind? sc e.1 with
  | some scores =>
      if scores.length ≠ 0 then
        (e.1, { e.2 with avgScore := scores.sum / (scores.length : ℚ) })
      else (e.1, e.2)
  | none => (e.1, e.2)

/-- The averaging loop of `buildDuplicateGroups`: apply `avgEntry` to every
group. -/
def avgPhase (st : GroupsState) : List (String × DuplicateGroup) :=
  st.groups.map (avgEntry st.groupScores)

/-- Embeds `analyzer.buildDuplicateGroups` (analyzer.go lines 139-227):
empty input returns no groups; otherwise union-find over the pairs'
fingerprints, group construction keyed by component root, membership fill,
and per-group score averaging; returns the groups map's values. -/
def buildDuplicateGroups (pairs : List PairCandidate) : List DuplicateGroup :=
  if pairs = [] then []
  else
    let up := unionPhase pairs
    let st := scorePhase pairs up.1
    let st2 := memberPhase st
    (avgPhase st2).map (fun e => e.2)

/-- The root-keyed groups map as it stands right before `buildDuplicateGroups`
returns its values. -/
def finalGroups (pairs : List PairCandidate) : List (String × DuplicateGroup) :=
  avgPhase (memberPhase (scorePhase pairs (unionPhase pairs).1))

/-- The distinct fingerprints mentioned by a pair list, in order of first
occurrence (the nodes of the union-find graph). -/
def pairHashes (pairs : List PairCandidate) : List String :=
  pairs.flatMap (fun p => [p.A.codeHash, p.B.codeHash])

/-- The connected-component relation of the confirmed-pair graph: the
symmetric-transitive closure of the edges contributed by the pairs, on
content fingerprints. This is the spec-side notion a `DuplicateGroup` is
claimed to realize. -/
inductive Linked (pairs : List PairCandidate) : String → String → Prop where
  | edge {p : PairCandidate} : p ∈ pairs → Linked pairs p.A.codeHash p.B.codeHash
  | symm {a b : String} : Linked pairs a b → Linked pairs b a
  | trans {a b c : String} : Linked pairs a b → Linked pairs b c → Linked pairs a c

/-- The fingerprints of a group's member chunks. -/
def groupHashes (g : DuplicateGroup) : List String :=
  g.chunks.map (fun c => c.codeHash)

/-! ## Incremental indexer (internal/indexer/indexer.go)

`IndexProject` interleaves filesystem and network effects with pure diff
logic. The effects are captured in an explicit environment: the enumerated
file list, the per-path `os.ReadFile` outcome, the content-hash function
(`utils.HashContent`, an opaque deterministic digest — no claim depends on
concrete SHA-256 values), the path normalization `normalizeFilePath` (which
depends on the OS and working directory), and the success/failure outcome of
`processFile` for each changed file (parsing, embedding and upsert are
external collaborators). -/

/-- The ambient effects of one `IndexProject` run. -/
structure IndexEnv where
  files : List String
  readFile : String → Option String
  hashContent : String → String
  norm : String → String
  processOk : String → Bool

/-- Embeds `indexer.hashFile`: read the file's bytes and hash them; fails
exactly when the read fails. -/
def hashFile (env : IndexEnv) (path : String) : Option String :=
  (env.readFile path).map env.hashContent

/-- Embeds the diffing loop of `IndexProject` (indexer.go lines 96-110): for
each enumerated file, compute the whole-file fingerprint (skipping the file
on a read error), record it in `currentHashes` under the normalized path, and
append the file to `changedFiles` when the key is absent from the prior state
or the prior fingerprint differs. `diffStep` is the loop body; `diffPhase`
folds it over the enumerated files and returns
`(currentHashes, changedFiles)`. -/
def diffStep (env : IndexEnv) (prevHashes : List (String × String))
    (acc : List (String × String) × List String) (f : String) :
    List (String × String) × List String :=
  match hashFile env f with
  | none => acc
  | some hash =>
    let key := env.norm f
    let current := mapSet acc.1 key hash
    match mapFind? prevHashes key with
    | none => (current, acc.2 ++ [f])
    | some prev => if prev ≠ hash then (current, acc.2 ++ [f]) else (current, acc.2)

def diffPhase (env : IndexEnv) (prevHashes : List (String × String)) :
    List (String × String) × List String :=
  env.files.foldl (diffStep env prevHashes) ([], [])

/-- Embeds the deleted-file scan of `IndexProject` (indexer.go lines
112-117): every prior-state key absent from `currentHashes` is deleted. -/
def deletedFilesOf (prevHashes currentHashes : List (String × String)) :
    List String :=
  (mapKeys prevHashes).filter (fun path => ¬ mapHas currentHashes path)

/-- Embeds the `qdrantpb.Filter` built by `indexer.deleteFilePoints`
(indexer.go lines 481-503): a single must-match condition on the payload
field `file_path`. -/
structure PointsFilter where
  key : String
  matchKeyword : String
  deriving DecidableEq

/-- The delete-by-filter call issued by `indexer.deleteFilePoints` for one
normalized path. -/
def deleteFilePointsFilter (path : String) : PointsFilter :=
  { key := "file_path", matchKeyword := path }

/-- The observable outcome of one `IndexProject` run: the diff
classification, the delete-by-filter calls of the deletion phase, the files
handed to the worker pool (the only files for which upserts can be issued),
the changed files whose `processFile` failed, and the hash state passed to
`saveFileHashes` (`none` when the run ends without saving). -/
structure RunOutcome where
  changedFiles : List String
  deletedFiles : List String
  deleteCalls : List PointsFilter
  processedFiles : List String
  failedFiles : List String
  savedState : Option (List (String × String))
  deriving DecidableEq

/-- Embeds `indexer.IndexProject` (indexer.go lines 59-162) after root
normalization: if enumeration returns zero files the run ends immediately
(lines 84-87), before the prior state is even loaded; otherwise the diff
phase classifies changed and deleted files; if neither exist the run ends at
the diff phase (lines 121-124) issuing no calls; otherwise one
delete-by-filter call is issued per deleted path, the changed files are
processed by the worker pool, and the full current hash map is saved
unconditionally (line 156), regardless of per-file processing outcomes. -/
def indexRun (env : IndexEnv) (prevHashes : List (String × String)) :
    RunOutcome :=
  if env.files = [] then
    { changedFiles := [], deletedFiles := [], deleteCalls := [],
      processedFiles := [], failedFiles := [], savedState := none }
  else
    let dp := diffPhase env prevHashes
    let currentHashes := dp.1
    let changedFiles := dp.2
    let deletedFiles := deletedFilesOf prevHashes currentHashes
    if changedFiles = [] ∧ deletedFiles = [] then
      { changedFiles := changedFiles, deletedFiles := deletedFiles,
        deleteCalls := [], processedFiles := [], failedFiles := [],
        savedState := none }
    else
      { changedFiles := changedFiles, deletedFiles := deletedFiles,
        deleteCalls := deletedFiles.map deleteFilePointsFilter,
        processedFiles := changedFiles,
        failedFiles := changedFiles.filter (fun f => ¬ env.processOk f),
        savedState := some currentHashes }

/-- A sample environment whose enumeration finds no files (used to evaluate
the run's early exit). -/
def envEmpty : IndexEnv :=
  { files := [], readFile := fun _ => none, hashContent := fun s => s,
    norm := fun s => s, processOk := fun _ => true }

/-- A sample single-file environment; its one file reads successfully and
its processing fails. -/
def envOne : IndexEnv :=
  { files := ["a"], readFile := fun _ => some "src", hashContent := fun s => s,
    norm := fun s => s, processOk := fun _ => false }

/-- A sample environment with one readable and one unreadable file. -/
def envTwo : IndexEnv :=
  { files := ["a", "b"],
    readFile := fun f => if f = "a" then some "s" else none,
    hashContent := fun s => s, norm := fun s => s, processOk := fun _ => true }

/-! ## Source-file walker (internal/utils/utils.go lines 31-50)

`GetAllSourceFiles` drives `filepath.WalkDir` with a callback that returns
any per-entry error as-is. The filesystem is embedded as a tree in which a
directory either reads successfully or fails; `filepath.WalkDir` semantics
are mirrored: the callback first sees every entry with a nil error (pruning
excluded directories via `SkipDir` before their contents are read), a
directory read failure triggers a second callback invocation carrying the
error, and a non-`SkipDir` error returned by the callback aborts the whole
walk. -/

/-- An in-memory filesystem entry; `dirErr` is a directory whose `ReadDir`
fails with the given message. -/
inductive FsEntry where
  | file (name : String)
  | dir (name : String) (entries : List FsEntry)
  | dirErr (name : String) (msg : String)

/-- The fixed exclusion set `utils.excludedDirs`. -/
def excludedDirs : List String :=
  [".git", "node_modules", "vendor", "dist", "build", ".next", "__pycache__", ".venv"]

/-- The extension-to-language table `utils.languageExts`. -/
def languageExts : List (String × String) :=
  [(".go", "go"), (".py", "python"), (".ts", "typescript"),
   (".tsx", "typescript"), (".js", "javascript"), (".jsx", "javascript")]

/-- Embeds `filepath.Ext`: the suffix of the path's last element starting at
its final dot, or the empty string when the last element has no dot. -/
def fileExt (path : String) : String :=
  let base := (path.splitOn "/").getLastD ""
  let parts := base.splitOn "."
  if parts.length ≤ 1 then "" else "." ++ parts.getLastD ""

/-- Whether the walk callback appends the path: its extension maps to a known
language (`if _, ok := languageExts[ext]; ok`). -/
def hasKnownExt (path : String) : Bool :=
  (languageExts.find? (fun e => e.1 = fileExt path)).isSome

/-- The base name of an entry (`d.Name()`). -/
def entryName : FsEntry → String
  | .file n => n
  | .dir n _ => n
  | .dirErr n _ => n

mutual

/-- One `filepath.walkDir` visit of the entry whose own path is `path`,
running the `GetAllSourceFiles` callback: excluded directories are pruned
(`SkipDir`), known-extension files are appended to `acc`, and a directory
read error is returned by the callback, aborting the walk. -/
def walkEntry (path : String) (acc : List String) : FsEntry → Except String (List String)
  | .file _ =>
      if hasKnownExt path then .ok (acc ++ [path]) else .ok acc
  | .dir name entries =>
      if excludedDirs.contains name then .ok acc
      else walkEntries path acc entries
  | .dirErr name msg =>
      if excludedDirs.contains name then .ok acc
      else .error msg

/-- The loop of `filepath.walkDir` over a directory's entries: each child is
visited at path `path/childName`; the first error aborts. -/
def walkEntries (path : String) (acc : List String) : List FsEntry → Except String (List String)
  | [] => .ok acc
  | e :: rest => do
      let acc' ← walkEntry (path ++ "/" ++ entryName e) acc e
      walkEntries path acc' rest

end

/-- Embeds `utils.GetAllSourceFiles`: `Lstat` of the root either fails (the
callback returns that error, so enumeration fails) or yields the root entry,
which is walked with the accumulated file list. -/
def GetAllSourceFiles (rootPath : String) (root : Except String FsEntry) :
    Except String (List String) :=
  match root with
  | .error e => .error e
  | .ok entry => walkEntry rootPath [] entry

mutual

/-- A tree whose walk can encounter no read error: every directory that is
actually entered (not pruned by the exclusion set) reads successfully,
recursively. -/
def errorFree : FsEntry → Bool
  | .file _ => true
  | .dir name entries =>
      excludedDirs.contains name || errorFreeList entries
  | .dirErr name _ => excludedDirs.contains name

/-- `errorFree` for every entry of a directory. -/
def errorFreeList : List FsEntry → Bool
  | [] => true
  | e :: rest => errorFree e && errorFreeList rest

end

/-! # Union-find reachability infrastructure -/

/-- One parent-pointer step (`parent[x]`, with the Go zero value for a
missing key). -/
def pstep (P : List (String × String)) (x : String) : String := mapGet P "" x

/-- `x` is its own parent. -/
def isRootP (P : List (String × String)) (x : String) : Prop := pstep P x = x

/-- Following parent pointers from `x` reaches the root `r`. -/
def Reaches (P : List (String × String)) (x r : String) : Prop :=
  ∃ n, (pstep P)^[n] x = r ∧ isRootP P r

/-- `a` and `b` have a common root. -/
def RootEq (P : List (String × String)) (a b : String) : Prop :=
  ∃ r, Reaches P a r ∧ Reaches P b r

/-- The union-find invariant: distinct keys, parent pointers staying inside
the key set, and every key reaching a root (the map is a forest). -/
structure UFInv (P : List (String × String)) : Prop where
  nodupKeys : (mapKeys P).Nodup
  closed : ∀ k ∈ mapKeys P, pstep P k ∈ mapKeys P
  rooted : ∀ k ∈ mapKeys P, ∃ r, Reaches P k r

/-- The canonical root of a fingerprint in the clustering of `pairs`,
computed with the code's own `find` on the union phase's parent map. -/
def rootD (pairs : List PairCandidate) (x : String) : String :=
  (ufFind (unionPhase pairs).1.length (unionPhase pairs).1 x).1


instance isRootP_decidable (P : List (String × String)) (x : String) :
    Decidable (isRootP P x) := by
  unfold isRootP
  infer_instance

/-- The invariant carried through the first loop of `buildDuplicateGroups`:
the parent map is a forest whose keys are exactly the fingerprints processed
so far and whose root-equivalence is exactly the processed connectivity. -/
structure UnionInv (st : List (String × String) × List (String × Int))
    (done : List PairCandidate) : Prop where
  ufinv : UFInv st.1
  dom : ∀ z, z ∈ mapKeys st.1 ↔ z ∈ pairHashes done
  rel : ∀ a b, a ∈ mapKeys st.1 → b ∈ mapKeys st.1 →
    (RootEq st.1 a b ↔ Linked done a b)

/-- Soundness of the mutated parent map against the union phase's map: same
keys, same reachability (path compression only shortens chains). -/
structure ParOk (pairs : List PairCandidate)
    (Q : List (String × String)) : Prop where
  ufinv : UFInv Q
  keys : mapKeys Q = mapKeys (unionPhase pairs).1
  reach : ∀ y s, Reaches Q y s ↔ Reaches (unionPhase pairs).1 y s

/-- The invariant carried through the second loop of `buildDuplicateGroups`:
`chunkMap` records the last payload seen for each processed fingerprint,
`groups` holds an empty group for each processed component root, and
`groupScores` lists, per root, the scores of the processed pairs of that
component in order. -/
structure ScoreInv (pairs done : List PairCandidate) (st : GroupsState) :
    Prop where
  par : ParOk pairs st.parent
  ckeys : ∀ z, mapHas st.chunkMap z = true ↔ z ∈ pairHashes done
  cnodup : (mapKeys st.chunkMap).Nodup
  cvals : ∀ e ∈ st.chunkMap,
    e.2.codeHash = e.1 ∧ ∃ q ∈ done, q.A = e.2 ∨ q.B = e.2
  gkeys : ∀ r, mapHas st.groups r = true ↔
    ∃ q ∈ done, rootD pairs q.A.codeHash = r
  gnodup : (mapKeys st.groups).Nodup
  gvals : ∀ e ∈ st.groups,
    e.2 = { chunks := [], avgScore := 0,
            reason := "Code similarity detected based on semantic analysis" }
  scores : ∀ r, mapGet st.groupScores [] r =
    (done.filter (fun q => decide (rootD pairs q.A.codeHash = r))).map
      (fun q => q.score)

/-- The invariant carried through the third loop of `buildDuplicateGroups`:
each root's group has collected, in order, the recorded payloads of the
processed `chunkMap` entries belonging to its component. -/
structure MemInv (pairs : List PairCandidate)
    (cdone : List (String × CodeChunkPayload)) (st : GroupsState) : Prop where
  par : ParOk pairs st.parent
  gkeys : ∀ r, mapHas st.groups r = true ↔
    ∃ q ∈ pairs, rootD pairs q.A.codeHash = r
  gnodup : (mapKeys st.groups).Nodup
  gfind : ∀ r g, mapFind? st.groups r = some g →
    g.chunks = (cdone.filter (fun e => decide (rootD pairs e.1 = r))).map
      (fun e => e.2) ∧
    g.avgScore = 0 ∧
    g.reason = "Code similarity detected based on semantic analysis"

/-! # Lemmas about the Go-map embedding -/

theorem mapHas_iff_exists {α : Type} (m : List (String × α)) (k : String) :
    mapHas m k = true ↔ ∃ e ∈ m, e.1 = k := by
  simp [mapHas, List.any_eq_true]

theorem mem_mapKeys {α : Type} (m : List (String × α)) (k : String) :
    k ∈ mapKeys m ↔ mapHas m k = true := by
  simp [mapKeys, mapHas, List.any_eq_true, List.mem_map]

theorem mapFind?_nil {α : Type} (k : String) :
    mapFind? ([] : List (String × α)) k = none := rfl

theorem mapFind?_cons_of_pos {α : Type} (e : String × α) (t : List (String × α))
    (k : String) (h : e.1 = k) : mapFind? (e :: t) k = some e.2 := by
  unfold mapFind?
  rw [List.find?_cons_of_pos _ (by simpa using h)]
  rfl

theorem mapFind?_cons_of_neg {α : Type} (e : String × α) (t : List (String × α))
    (k : String) (h : ¬ e.1 = k) : mapFind? (e :: t) k = mapFind? t k := by
  unfold mapFind?
  rw [List.find?_cons_of_neg _ (by simpa using h)]

theorem mapHas_cons_of_pos {α : Type} (e : String × α) (t : List (String × α))
    (k : String) (h : e.1 = k) : mapHas (e :: t) k = true := by
  simp [mapHas, List.any_cons, h]

theorem mapHas_cons_of_neg {α : Type} (e : String × α) (t : List (String × α))
    (k : String) (h : ¬ e.1 = k) : mapHas (e :: t) k = mapHas t k := by
  simp [mapHas, List.any_cons, h]

theorem mapHas_eq_isSome {α : Type} (m : List (String × α)) (k : String) :
    mapHas m k = (mapFind? m k).isSome := by
  induction m with
  | nil => rfl
  | cons e t ih =>
    by_cases h : e.1 = k
    · rw [mapFind?_cons_of_pos _ _ _ h]
      simp [mapHas, List.any_cons, h]
    · rw [mapFind?_cons_of_neg _ _ _ h, ← ih]
      simp [mapHas, List.any_cons, h]

theorem mapFind?_map_replace {α : Type} (m : List (String × α)) (k k' : String) (v : α) :
    mapFind? (m.map (fun e => if e.1 = k then (k, v) else e)) k' =
      if k' = k then (if mapHas m k then some v else none) else mapFind? m k' := by
  induction m with
  | nil => by_cases hk : k' = k <;> simp [mapFind?, mapHas, hk]
  | cons e t ih =>
    simp only [List.map_cons]
    by_cases he : e.1 = k
    · rw [if_pos he]
      by_cases hk : k' = k
      · subst hk
        rw [mapFind?_cons_of_pos _ _ _ rfl, if_pos rfl, if_pos (mapHas_cons_of_pos _ _ _ he)]
      · rw [if_neg hk, mapFind?_cons_of_neg _ _ _ (fun h => hk h.symm),
            mapFind?_cons_of_neg _ _ _ (fun h : e.1 = k' => hk (he ▸ h).symm)]
        simpa [hk] using ih
    · rw [if_neg he]
      by_cases hp : e.1 = k'
      · have hk : ¬ (k' = k) := fun h => he (hp.trans h)
        rw [if_neg hk, mapFind?_cons_of_pos _ _ _ hp, mapFind?_cons_of_pos _ _ _ hp]
      · rw [mapFind?_cons_of_neg _ _ _ hp]
        by_cases hk : k' = k
        · subst hk
          rw [if_pos rfl] at ih ⊢
          rw [ih, mapHas_cons_of_neg _ _ _ he]
        · rw [if_neg hk] at ih ⊢
          rw [ih, mapFind?_cons_of_neg _ _ _ hp]

theorem mapFind?_append_new {α : Type} (m : List (String × α)) (k k' : String) (v : α)
    (h : mapHas m k = false) :
    mapFind? (m ++ [(k, v)]) k' = if k' = k then some v else mapFind? m k' := by
  induction m with
  | nil =>
    by_cases hk : k' = k
    · subst hk
      rw [List.nil_append, mapFind?_cons_of_pos _ _ _ rfl, if_pos rfl]
    · rw [List.nil_append, mapFind?_cons_of_neg _ _ _ (fun hh => hk hh.symm), if_neg hk]
  | cons e t ih =>
    simp only [mapHas, List.any_cons, Bool.or_eq_false_iff, decide_eq_false_iff_not] at h
    obtain ⟨he, ht⟩ := h
    simp only [List.cons_append]
    by_cases hp : e.1 = k'
    · have hk : ¬ (k' = k) := fun hkk => he (hkk ▸ hp)
      rw [if_neg hk, mapFind?_cons_of_pos _ _ _ hp, mapFind?_cons_of_pos _ _ _ hp]
    · rw [mapFind?_cons_of_neg _ _ _ hp]
      by_cases hk : k' = k
      · rw [if_pos hk]
        rw [ih ht, if_pos hk]
      · rw [if_neg hk, ih ht, if_neg hk, mapFind?_cons_of_neg _ _ _ hp]

theorem mapFind?_set {α : Type} (m : List (String × α)) (k k' : String) (v : α) :
    mapFind? (mapSet m k v) k' = if k' = k then some v else mapFind? m k' := by
  unfold mapSet
  by_cases h : m.any (fun e => e.1 = k)
  · rw [if_pos h, mapFind?_map_replace]
    have hh : mapHas m k = true := h
    by_cases hk : k' = k <;> simp [hk, hh]
  · rw [if_neg h]
    exact mapFind?_append_new m k k' v (Bool.eq_false_iff.mpr h)

theorem mapHas_set {α : Type} (m : List (String × α)) (k k' : String) (v : α) :
    mapHas (mapSet m k v) k' = true ↔ (mapHas m k' = true ∨ k' = k) := by
  rw [mapHas_eq_isSome, mapFind?_set, mapHas_eq_isSome]
  by_cases hk : k' = k <;> simp [hk]

theorem mapGet_eq_getD {α : Type} (m : List (String × α)) (d : α) (k : String) :
    mapGet m d k = (mapFind? m k).getD d := by
  unfold mapGet mapFind?
  cases m.find? (fun e => e.1 = k) <;> rfl

theorem mapKeys_set {α : Type} (m : List (String × α)) (k : String) (v : α) :
    mapKeys (mapSet m k v) =
      if mapHas m k then mapKeys m else mapKeys m ++ [k] := by
  unfold mapSet mapHas mapKeys
  by_cases h : m.any (fun e => e.1 = k)
  · rw [if_pos h, if_pos h, List.map_map]
    apply List.map_congr_left
    intro e _
    by_cases he : e.1 = k <;> simp [he]
  · rw [if_neg h, if_neg h]
    simp

theorem mapFind?_eq_none_iff {α : Type} (m : List (String × α)) (k : String) :
    mapFind? m k = none ↔ mapHas m k = false := by
  rw [mapHas_eq_isSome]
  cases h : mapFind? m k <;> simp [h]

/-! # Lemmas and claim theorems for the source-file walker -/

mutual

theorem walkEntry_ok (p : String) (acc : List String) (e : FsEntry)
    (h : errorFree e = true) : ∃ acc2, walkEntry p acc e = .ok acc2 := by
  cases e with
  | file n =>
    unfold walkEntry
    by_cases hx : hasKnownExt p = true
    · exact ⟨acc ++ [p], by rw [if_pos hx]⟩
    · exact ⟨acc, by rw [if_neg hx]⟩
  | dir n entries =>
    unfold walkEntry
    by_cases hex : excludedDirs.contains n = true
    · exact ⟨acc, by rw [if_pos hex]⟩
    · rw [errorFree, Bool.or_eq_true] at h
      rw [if_neg hex]
      apply walkEntries_ok
      rcases h with h1 | h1
      · exact absurd h1 hex
      · exact h1
  | dirErr n m =>
    rw [errorFree] at h
    exact ⟨acc, by unfold walkEntry; rw [if_pos h]⟩

theorem walkEntries_ok (p : String) (acc : List String) (es : List FsEntry)
    (h : errorFreeList es = true) : ∃ acc2, walkEntries p acc es = .ok acc2 := by
  cases es with
  | nil => exact ⟨acc, rfl⟩
  | cons e rest =>
    rw [errorFreeList, Bool.and_eq_true] at h
    obtain ⟨h1, h2⟩ := h
    obtain ⟨acc1, ha1⟩ := walkEntry_ok (p ++ "/" ++ entryName e) acc e h1
    obtain ⟨acc2, ha2⟩ := walkEntries_ok p acc1 rest h2
    refine ⟨acc2, ?_⟩
    unfold walkEntries
    rw [ha1]
    exact ha2

end

theorem walkEntries_error_prop (p : String) :
    ∀ (pre : List FsEntry) (acc : List String) (n msg : String) (post : List FsEntry),
      excludedDirs.contains n = false →
      errorFreeList pre = true →
      walkEntries p acc (pre ++ .dirErr n msg :: post) = .error msg := by
  intro pre
  induction pre with
  | nil =>
    intro acc n msg post hn _
    rw [List.nil_append]
    unfold walkEntries walkEntry
    rw [if_neg (by rw [hn]; simp)]
    rfl
  | cons e rest ih =>
    intro acc n msg post hn hpre
    rw [errorFreeList, Bool.and_eq_true] at hpre
    obtain ⟨h1, h2⟩ := hpre
    obtain ⟨acc1, ha1⟩ := walkEntry_ok (p ++ "/" ++ entryName e) acc e h1
    rw [List.cons_append]
    unfold walkEntries
    rw [ha1]
    exact ih acc1 n msg post hn h2

/-- C7 counterexample: an I/O error on a subdirectory entry — not on the
root — aborts the whole enumeration with that error, because the walk
callback returns every per-entry error instead of skipping it; the claim
predicts the walk succeeds, skipping the entry. -/
theorem walker_fails_on_entry_error :
    GetAllSourceFiles "/r"
        (.ok (.dir "root" [.dirErr "sub" "read failure", .file "a.go"])) =
      .error "read failure" := by
  unfold GetAllSourceFiles walkEntry
  rw [if_neg (by decide)]
  exact walkEntries_error_prop "/r" [] [] "sub" "read failure" [.file "a.go"]
    (by decide) rfl

/-- C7 amended: enumeration fails with the root's own error when `Lstat` of
the root fails; it ALSO fails on the first per-entry I/O error encountered
during the recursive walk (per-entry errors are propagated, not skipped);
and it succeeds whenever the walk encounters no read error. -/
theorem walker_error_semantics :
    (∀ rootPath e, GetAllSourceFiles rootPath (.error e) = .error e) ∧
    (∀ rootPath t, errorFree t = true →
      ∃ fs, GetAllSourceFiles rootPath (.ok t) = .ok fs) ∧
    (∀ rootPath name pre n msg post,
      excludedDirs.contains name = false →
      excludedDirs.contains n = false →
      errorFreeList pre = true →
      GetAllSourceFiles rootPath (.ok (.dir name (pre ++ .dirErr n msg :: post))) =
        .error msg) := by
  refine ⟨fun _ _ => rfl, ?_, ?_⟩
  · intro rootPath t ht
    exact walkEntry_ok rootPath [] t ht
  · intro rootPath name pre n msg post hname hn hpre
    unfold GetAllSourceFiles walkEntry
    rw [if_neg (by rw [hname]; simp)]
    exact walkEntries_error_prop rootPath pre [] n msg post hn hpre

/-- Witness for C7 amended, at a concrete tree whose second entry fails to
read: enumeration returns that error. -/
theorem walker_error_semantics_witness :
    GetAllSourceFiles "/r"
        (.ok (.dir "src" ([.file "ok.go"] ++ .dirErr "sub" "boom" :: []))) =
      .error "boom" :=
  walker_error_semantics.2.2 "/r" "src" [.file "ok.go"] "sub" "boom" []
    (by decide) (by decide) (by simp [errorFreeList, errorFree])

/-! # Lemmas about the diff phase of `IndexProject` -/

theorem diffStep_snd_mem (env : IndexEnv) (prev : List (String × String))
    (acc : List (String × String) × List String) (g f : String) :
    f ∈ (diffStep env prev acc g).2 ↔
      f ∈ acc.2 ∨ (f = g ∧ ∃ d, env.readFile g = some d ∧
        mapFind? prev (env.norm g) ≠ some (env.hashContent d)) := by
  unfold diffStep hashFile
  cases hg : env.readFile g with
  | none => simp [hg]
  | some d =>
    simp only [hg, Option.map_some']
    cases hp : mapFind? prev (env.norm g) with
    | none => simp [hp, List.mem_append]
    | some prevh =>
      by_cases hne : prevh = env.hashContent d
      · subst hne
        simp [hp]
      · simp [hp, hne, List.mem_append]

theorem diffStep_fst (env : IndexEnv) (prev : List (String × String))
    (acc : List (String × String) × List String) (g : String) :
    (diffStep env prev acc g).1 =
      match hashFile env g with
      | none => acc.1
      | some h => mapSet acc.1 (env.norm g) h := by
  unfold diffStep
  cases hashFile env g with
  | none => rfl
  | some h =>
    dsimp only
    cases mapFind? prev (env.norm g) with
    | none => rfl
    | some p => by_cases hp : p ≠ h <;> simp [hp]

theorem diff_fold_changed_mem (env : IndexEnv) (prev : List (String × String))
    (f : String) :
    ∀ (fs : List String) (acc : List (String × String) × List String),
      f ∈ (fs.foldl (diffStep env prev) acc).2 ↔
        f ∈ acc.2 ∨ (f ∈ fs ∧ ∃ d, env.readFile f = some d ∧
          mapFind? prev (env.norm f) ≠ some (env.hashContent d)) := by
  intro fs
  induction fs with
  | nil => intro acc; simp
  | cons g t ih =>
    intro acc
    by_cases hfg : f = g
    · subst hfg
      rw [List.foldl_cons, ih, diffStep_snd_mem]
      generalize (∃ d, env.readFile f = some d ∧
        mapFind? prev (env.norm f) ≠ some (env.hashContent d)) = C
      simp only [List.mem_cons, true_and, eq_self_iff_true, true_or]
      tauto
    · rw [List.foldl_cons, ih, diffStep_snd_mem]
      simp [hfg]

theorem diffPhase_changed_mem (env : IndexEnv) (prev : List (String × String))
    (f : String) :
    f ∈ (diffPhase env prev).2 ↔
      f ∈ env.files ∧ ∃ d, env.readFile f = some d ∧
        mapFind? prev (env.norm f) ≠ some (env.hashContent d) := by
  unfold diffPhase
  rw [diff_fold_changed_mem]
  simp

theorem diff_fold_has (env : IndexEnv) (prev : List (String × String)) (k : String) :
    ∀ (fs : List String) (acc : List (String × String) × List String),
      mapHas (fs.foldl (diffStep env prev) acc).1 k = true ↔
        mapHas acc.1 k = true ∨ ∃ g ∈ fs, env.norm g = k ∧ env.readFile g ≠ none := by
  intro fs
  induction fs with
  | nil => intro acc; simp
  | cons g t ih =>
    intro acc
    rw [List.foldl_cons, ih]
    have hstep : mapHas (diffStep env prev acc g).1 k = true ↔
        mapHas acc.1 k = true ∨ (env.norm g = k ∧ env.readFile g ≠ none) := by
      rw [diffStep_fst]
      unfold hashFile
      cases hg : env.readFile g with
      | none => simp [hg]
      | some d =>
        dsimp only [Option.map_some']
        rw [mapHas_set]
        simp [hg]
        tauto
    rw [hstep]
    constructor
    · rintro (( h | h ) | ⟨g', hg', h⟩)
      · exact Or.inl h
      · exact Or.inr ⟨g, List.mem_cons_self g t, h⟩
      · exact Or.inr ⟨g', List.mem_cons_of_mem _ hg', h⟩
    · rintro (h | ⟨g', hg', h⟩)
      · exact Or.inl (Or.inl h)
      · rcases List.mem_cons.mp hg' with rfl | hg't
        · exact Or.inl (Or.inr h)
        · exact Or.inr ⟨g', hg't, h⟩

theorem diffPhase_has (env : IndexEnv) (prev : List (String × String)) (k : String) :
    mapHas (diffPhase env prev).1 k = true ↔
      ∃ g ∈ env.files, env.norm g = k ∧ env.readFile g ≠ none := by
  unfold diffPhase
  rw [diff_fold_has]
  simp [mapHas]

theorem diff_fold_lookup_preserve (env : IndexEnv) (prev : List (String × String))
    (k v : String) :
    ∀ (fs : List String) (acc : List (String × String) × List String),
      mapFind? acc.1 k = some v →
      (∀ g ∈ fs, env.norm g = k → hashFile env g = some v) →
      mapFind? ((fs.foldl (diffStep env prev) acc)).1 k = some v := by
  intro fs
  induction fs with
  | nil => intro acc h _; simpa using h
  | cons g t ih =>
    intro acc h hall
    rw [List.foldl_cons]
    apply ih
    · rw [diffStep_fst]
      cases hg : hashFile env g with
      | none => simpa using h
      | some hh =>
        dsimp only
        rw [mapFind?_set]
        by_cases hk : k = env.norm g
        · rw [if_pos hk]
          have := hall g (List.mem_cons_self g t) hk.symm
          rw [hg] at this
          exact this
        · rw [if_neg hk]
          exact h
    · intro g' hg' hn
      exact hall g' (List.mem_cons_of_mem _ hg') hn

theorem diff_fold_lookup (env : IndexEnv) (prev : List (String × String)) :
    ∀ (fs : List String) (acc : List (String × String) × List String),
      (∀ a ∈ fs, ∀ b ∈ fs, env.norm a = env.norm b → a = b) →
      ∀ f ∈ fs, ∀ d, env.readFile f = some d →
      mapFind? ((fs.foldl (diffStep env prev) acc)).1 (env.norm f) =
        some (env.hashContent d) := by
  intro fs
  induction fs with
  | nil => intro acc _ f hf; simp at hf
  | cons g t ih =>
    intro acc hinj f hf d hd
    rw [List.foldl_cons]
    rcases List.mem_cons.mp hf with hfg | hft
    · subst hfg
      apply diff_fold_lookup_preserve
      · rw [diffStep_fst]
        have hhf : hashFile env f = some (env.hashContent d) := by
          unfold hashFile; rw [hd]; rfl
        rw [hhf]
        dsimp only
        rw [mapFind?_set, if_pos rfl]
      · intro g' hg' hn
        have hgf : g' = f :=
          hinj g' (List.mem_cons_of_mem _ hg') f (List.mem_cons_self _ _) hn
        subst hgf
        unfold hashFile
        rw [hd]
        rfl
    · exact ih (diffStep env prev acc g)
        (fun a ha b hb => hinj a (List.mem_cons_of_mem _ ha) b (List.mem_cons_of_mem _ hb))
        f hft d hd

theorem diffPhase_lookup (env : IndexEnv) (prev : List (String × String))
    (hinj : ∀ a ∈ env.files, ∀ b ∈ env.files, env.norm a = env.norm b → a = b) :
    ∀ f ∈ env.files, ∀ d, env.readFile f = some d →
      mapFind? (diffPhase env prev).1 (env.norm f) = some (env.hashContent d) := by
  intro f hf d hd
  exact diff_fold_lookup env prev env.files ([], []) hinj f hf d hd

theorem deletedFilesOf_mem (prev cur : List (String × String)) (k : String) :
    k ∈ deletedFilesOf prev cur ↔ k ∈ mapKeys prev ∧ mapHas cur k = false := by
  unfold deletedFilesOf
  rw [List.mem_filter]
  simp

/-! # Lemmas about the shape of an `IndexProject` run -/

theorem indexRun_changed (env : IndexEnv) (prev : List (String × String))
    (hne : env.files ≠ []) :
    (indexRun env prev).changedFiles = (diffPhase env prev).2 := by
  unfold indexRun
  rw [if_neg hne]
  dsimp only
  split <;> rfl

theorem indexRun_deleted (env : IndexEnv) (prev : List (String × String))
    (hne : env.files ≠ []) :
    (indexRun env prev).deletedFiles =
      deletedFilesOf prev (diffPhase env prev).1 := by
  unfold indexRun
  rw [if_neg hne]
  dsimp only
  split <;> rfl

theorem indexRun_not_fast (env : IndexEnv) (prev : List (String × String))
    (hne : env.files ≠ [])
    (h : ¬ ((diffPhase env prev).2 = [] ∧
        deletedFilesOf prev (diffPhase env prev).1 = [])) :
    indexRun env prev =
      { changedFiles := (diffPhase env prev).2,
        deletedFiles := deletedFilesOf prev (diffPhase env prev).1,
        deleteCalls := (deletedFilesOf prev (diffPhase env prev).1).map deleteFilePointsFilter,
        processedFiles := (diffPhase env prev).2,
        failedFiles := (diffPhase env prev).2.filter (fun f => ¬ env.processOk f),
        savedState := some (diffPhase env prev).1 } := by
  unfold indexRun
  rw [if_neg hne]
  dsimp only
  rw [if_neg h]

theorem indexRun_fast (env : IndexEnv) (prev : List (String × String))
    (hne : env.files ≠ [])
    (h : (diffPhase env prev).2 = [] ∧
        deletedFilesOf prev (diffPhase env prev).1 = []) :
    indexRun env prev =
      { changedFiles := (diffPhase env prev).2,
        deletedFiles := deletedFilesOf prev (diffPhase env prev).1,
        deleteCalls := [], processedFiles := [], failedFiles := [],
        savedState := none } := by
  unfold indexRun
  rw [if_neg hne]
  dsimp only
  rw [if_pos h]

theorem indexRun_saved_some (env : IndexEnv) (prev cur : List (String × String))
    (hsaved : (indexRun env prev).savedState = some cur) :
    env.files ≠ [] ∧ cur = (diffPhase env prev).1 := by
  by_cases hne : env.files = []
  · unfold indexRun at hsaved
    rw [if_pos hne] at hsaved
    simp at hsaved
  · refine ⟨hne, ?_⟩
    by_cases h : (diffPhase env prev).2 = [] ∧
        deletedFilesOf prev (diffPhase env prev).1 = []
    · rw [indexRun_fast env prev hne h] at hsaved
      simp at hsaved
    · rw [indexRun_not_fast env prev hne h] at hsaved
      simpa using hsaved.symm

/-- Shared core of the idempotence claims: once a run has saved its hash
state, re-running with that state as the prior state is a no-op that ends at
the diff phase. -/
theorem reindex_noop_core (env : IndexEnv) (prev cur : List (String × String))
    (hinj : ∀ a ∈ env.files, ∀ b ∈ env.files, env.norm a = env.norm b → a = b)
    (hsaved : (indexRun env prev).savedState = some cur) :
    indexRun env cur =
      { changedFiles := [], deletedFiles := [], deleteCalls := [],
        processedFiles := [], failedFiles := [], savedState := none } := by
  obtain ⟨hne, rfl⟩ := indexRun_saved_some env prev cur hsaved
  have hchanged : (diffPhase env (diffPhase env prev).1).2 = [] := by
    rw [List.eq_nil_iff_forall_not_mem]
    intro f hf
    rw [diffPhase_changed_mem] at hf
    obtain ⟨hfmem, d, hd, hnefind⟩ := hf
    exact hnefind (diffPhase_lookup env prev hinj f hfmem d hd)
  have hdel : deletedFilesOf (diffPhase env prev).1
      (diffPhase env (diffPhase env prev).1).1 = [] := by
    rw [List.eq_nil_iff_forall_not_mem]
    intro k hk
    rw [deletedFilesOf_mem, mem_mapKeys] at hk
    obtain ⟨hk1, hk2⟩ := hk
    obtain ⟨g, hg, hn, hr⟩ := (diffPhase_has env prev k).mp hk1
    have hk3 : mapHas (diffPhase env (diffPhase env prev).1).1 k = true :=
      (diffPhase_has env _ k).mpr ⟨g, hg, hn, hr⟩
    rw [hk3] at hk2
    cases hk2
  rw [indexRun_fast env (diffPhase env prev).1 hne ⟨hchanged, hdel⟩, hchanged, hdel]

/-! # Claim theorems for the incremental indexer -/

/-- C4: during the diffing phase of `IndexProject` (with a non-empty
enumeration, so the diff phase runs, and all files readable, so every
fingerprint is computed), a file is classified as changed exactly when it is
absent from the prior hash state or its fingerprint differs from the prior
one, and every prior-state key absent from the current (normalized) file set
is classified as deleted. -/
theorem indexProject_diff_classification (env : IndexEnv)
    (prev : List (String × String))
    (hne : env.files ≠ [])
    (hread : ∀ f ∈ env.files, env.readFile f ≠ none) :
    (∀ f ∈ env.files, ∀ d, env.readFile f = some d →
      (f ∈ (indexRun env prev).changedFiles ↔
        (mapFind? prev (env.norm f) = none ∨
          mapFind? prev (env.norm f) ≠ some (env.hashContent d)))) ∧
    (∀ k, k ∈ (indexRun env prev).deletedFiles ↔
      (mapHas prev k = true ∧ ∀ f ∈ env.files, env.norm f ≠ k)) := by
  constructor
  · intro f hf d hd
    rw [indexRun_changed env prev hne, diffPhase_changed_mem]
    constructor
    · rintro ⟨-, d', hd', hnefind⟩
      rw [hd] at hd'
      obtain rfl : d = d' := Option.some.inj hd'
      exact Or.inr hnefind
    · rintro (h | h)
      · exact ⟨hf, d, hd, by simp [h]⟩
      · exact ⟨hf, d, hd, h⟩
  · intro k
    rw [indexRun_deleted env prev hne, deletedFilesOf_mem, mem_mapKeys]
    constructor
    · rintro ⟨hk, hcur⟩
      refine ⟨hk, ?_⟩
      intro f hf hnf
      have hk3 : mapHas (diffPhase env prev).1 k = true :=
        (diffPhase_has env prev k).mpr ⟨f, hf, hnf, hread f hf⟩
      rw [hk3] at hcur
      cases hcur
    · rintro ⟨hk, hall⟩
      refine ⟨hk, ?_⟩
      by_cases hcur : mapHas (diffPhase env prev).1 k = true
      · obtain ⟨g, hg, hn, -⟩ := (diffPhase_has env prev k).mp hcur
        exact absurd hn (hall g hg)
      · exact Bool.eq_false_iff.mpr hcur

/-- Witness for C4: with one readable file `a` and empty prior state, `a` is
classified as changed. -/
theorem indexProject_diff_classification_witness :
    "a" ∈ (indexRun envOne []).changedFiles :=
  ((indexProject_diff_classification envOne [] (by simp [envOne])
      (by intro f _; simp [envOne])).1
    "a" (by simp [envOne]) "src" rfl).mpr (Or.inl rfl)

/-- C5: indexing an unchanged project a second time (same enumeration, same
file contents) produces zero changed and zero deleted files and ends at the
diff phase: no delete-by-filter calls, no files handed to the worker pool
(hence no upserts), and no state save. Path normalization is assumed
injective on the enumerated files, which holds for distinct absolute
paths. -/
theorem reindex_unchanged_is_noop (env : IndexEnv)
    (prev cur : List (String × String))
    (hinj : ∀ a ∈ env.files, ∀ b ∈ env.files, env.norm a = env.norm b → a = b)
    (hsaved : (indexRun env prev).savedState = some cur) :
    indexRun env cur =
      { changedFiles := [], deletedFiles := [], deleteCalls := [],
        processedFiles := [], failedFiles := [], savedState := none } :=
  reindex_noop_core env prev cur hinj hsaved

/-- Witness for C5 at a concrete one-file project: the first run saves
`[("a", "src")]`, and re-running with that state is a no-op. -/
theorem reindex_unchanged_is_noop_witness :
    indexRun envOne [("a", "src")] =
      { changedFiles := [], deletedFiles := [], deleteCalls := [],
        processedFiles := [], failedFiles := [], savedState := none } :=
  reindex_unchanged_is_noop envOne [] [("a", "src")]
    (by intro a ha b hb _; simp [envOne] at ha hb; simp [ha, hb])
    (by decide)

/-- C6: a run that detects at least one changed or deleted file saves the
full current-run hash map unconditionally: the saved state does not depend
on per-file processing outcomes, a changed file whose processing failed
still has its current fingerprint recorded, and such a file is not
re-classified as changed on the next run. -/
theorem indexRun_persists_unconditionally (env : IndexEnv)
    (prev : List (String × String))
    (hinj : ∀ a ∈ env.files, ∀ b ∈ env.files, env.norm a = env.norm b → a = b)
    (hdetect : (indexRun env prev).changedFiles ≠ [] ∨
      (indexRun env prev).deletedFiles ≠ []) :
    ∃ cur, (indexRun env prev).savedState = some cur ∧
      (∀ f ∈ env.files, ∀ d, env.readFile f = some d →
        mapFind? cur (env.norm f) = some (env.hashContent d)) ∧
      (∀ o, (indexRun { env with processOk := o } prev).savedState = some cur) ∧
      (∀ f ∈ (indexRun env prev).failedFiles, ∃ d, env.readFile f = some d ∧
        mapFind? cur (env.norm f) = some (env.hashContent d)) ∧
      (∀ f ∈ (indexRun env prev).failedFiles,
        f ∉ (indexRun env cur).changedFiles) := by
  have hne : env.files ≠ [] := by
    intro h
    unfold indexRun at hdetect
    rw [if_pos h] at hdetect
    rcases hdetect with h1 | h1 <;> exact h1 rfl
  have hnotfast : ¬ ((diffPhase env prev).2 = [] ∧
      deletedFilesOf prev (diffPhase env prev).1 = []) := by
    rintro ⟨h1, h2⟩
    rw [indexRun_changed env prev hne] at hdetect
    rw [indexRun_deleted env prev hne] at hdetect
    rcases hdetect with h3 | h3
    · exact h3 h1
    · exact h3 h2
  refine ⟨(diffPhase env prev).1, ?_, ?_, ?_, ?_, ?_⟩
  · rw [indexRun_not_fast env prev hne hnotfast]
  · exact diffPhase_lookup env prev hinj
  · intro o
    rw [indexRun_not_fast { env with processOk := o } prev hne hnotfast]
    rfl
  · intro f hf
    rw [indexRun_not_fast env prev hne hnotfast] at hf
    dsimp only at hf
    rw [List.mem_filter] at hf
    obtain ⟨hf1, -⟩ := hf
    rw [diffPhase_changed_mem] at hf1
    obtain ⟨hfmem, d, hd, -⟩ := hf1
    exact ⟨d, hd, diffPhase_lookup env prev hinj f hfmem d hd⟩
  · intro f hf
    have hnoop := reindex_noop_core env prev (diffPhase env prev).1 hinj
      (by rw [indexRun_not_fast env prev hne hnotfast])
    rw [hnoop]
    simp

/-- Witness for C6 at a concrete one-file project whose processing fails:
the hash of file `a` is persisted anyway. -/
theorem indexRun_persists_unconditionally_witness :
    ∃ cur, (indexRun envOne []).savedState = some cur ∧
      (∀ f ∈ envOne.files, ∀ d, envOne.readFile f = some d →
        mapFind? cur (envOne.norm f) = some (envOne.hashContent d)) ∧
      (∀ o, (indexRun { envOne with processOk := o } []).savedState = some cur) ∧
      (∀ f ∈ (indexRun envOne []).failedFiles, ∃ d, envOne.readFile f = some d ∧
        mapFind? cur (envOne.norm f) = some (envOne.hashContent d)) ∧
      (∀ f ∈ (indexRun envOne []).failedFiles,
        f ∉ (indexRun envOne cur).changedFiles) :=
  indexRun_persists_unconditionally envOne []
    (by intro a ha b hb _; simp [envOne] at ha hb; simp [ha, hb])
    (Or.inl (by decide))

/-- C8 counterexample: with prior state tracking file `a` but an empty
current enumeration, the run ends before the diff phase: no delete-by-filter
call is issued for `a` and no state is persisted (so `a` is not removed from
the stored state), contradicting the claim that every prior-state file
absent from the enumeration gets exactly one delete call and is dropped from
the persisted state. -/
theorem deletion_skipped_on_empty_enumeration :
    mapHas [("a", "h")] "a" = true ∧ envEmpty.files = [] ∧
    (indexRun envEmpty [("a", "h")]).deleteCalls = [] ∧
    (indexRun envEmpty [("a", "h")]).savedState = none := by
  refine ⟨by decide, rfl, rfl, rfl⟩

/-- C8 amended: provided the current enumeration is non-empty (the run ends
before diffing when it is empty), every prior-state key absent from the
current enumeration's normalized paths gets exactly one delete-by-filter
call on payload field `file_path` matching exactly that key, and the key is
absent from the persisted hash state. -/
theorem deletion_propagation (env : IndexEnv) (prev : List (String × String))
    (k : String)
    (hne : env.files ≠ [])
    (hnodup : (mapKeys prev).Nodup)
    (hk : mapHas prev k = true)
    (habsent : ∀ f ∈ env.files, env.norm f ≠ k) :
    (indexRun env prev).deletedFiles.count k = 1 ∧
    (indexRun env prev).deleteCalls.count (deleteFilePointsFilter k) = 1 ∧
    ∃ cur, (indexRun env prev).savedState = some cur ∧ mapFind? cur k = none := by
  have hcur : mapHas (diffPhase env prev).1 k = false := by
    by_cases h : mapHas (diffPhase env prev).1 k = true
    · obtain ⟨g, hg, hn, -⟩ := (diffPhase_has env prev k).mp h
      exact absurd hn (habsent g hg)
    · exact Bool.eq_false_iff.mpr h
  have hkdel : k ∈ deletedFilesOf prev (diffPhase env prev).1 :=
    (deletedFilesOf_mem prev _ k).mpr ⟨(mem_mapKeys prev k).mpr hk, hcur⟩
  have hnotfast : ¬ ((diffPhase env prev).2 = [] ∧
      deletedFilesOf prev (diffPhase env prev).1 = []) := by
    rintro ⟨-, h2⟩
    rw [h2] at hkdel
    exact absurd hkdel (List.not_mem_nil k)
  rw [indexRun_not_fast env prev hne hnotfast]
  have hcount : (deletedFilesOf prev (diffPhase env prev).1).count k = 1 := by
    unfold deletedFilesOf
    rw [List.count_filter (by simpa using hcur)]
    exact List.count_eq_one_of_mem hnodup ((mem_mapKeys prev k).mpr hk)
  refine ⟨hcount, ?_, (diffPhase env prev).1, rfl,
    (mapFind?_eq_none_iff _ k).mpr hcur⟩
  rw [List.count_map_of_injective _ deleteFilePointsFilter ?_ k, hcount]
  intro a b hab
  simpa [deleteFilePointsFilter] using hab

/-- Witness for C8 amended: file `b` is tracked in prior state, absent from
the enumeration `["a"]`, and gets exactly one delete call. -/
theorem deletion_propagation_witness :
    (indexRun envOne [("b", "x")]).deletedFiles.count "b" = 1 ∧
    (indexRun envOne [("b", "x")]).deleteCalls.count (deleteFilePointsFilter "b") = 1 ∧
    ∃ cur, (indexRun envOne [("b", "x")]).savedState = some cur ∧
      mapFind? cur "b" = none :=
  deletion_propagation envOne [("b", "x")] "b" (by simp [envOne])
    (by simp [mapKeys]) (by decide) (by intro f hf; simp [envOne] at hf ⊢; simp [hf])

/-- C9: a file that is enumerated but whose contents cannot be read is
omitted from the current hash map; if its normalized path was tracked in the
prior state it is classified as deleted, its vectors get a delete-by-filter
call, and its entry is dropped from the persisted state, even though the
file still exists on disk. -/
theorem unreadable_file_counts_as_deleted (env : IndexEnv)
    (prev : List (String × String)) (f h0 : String)
    (hf : f ∈ env.files)
    (hunread : env.readFile f = none)
    (hprev : mapFind? prev (env.norm f) = some h0)
    (hkey : ∀ g ∈ env.files, env.norm g = env.norm f → env.readFile g = none) :
    env.norm f ∈ (indexRun env prev).deletedFiles ∧
    deleteFilePointsFilter (env.norm f) ∈ (indexRun env prev).deleteCalls ∧
    ∃ cur, (indexRun env prev).savedState = some cur ∧
      mapFind? cur (env.norm f) = none := by
  have hne : env.files ≠ [] := List.ne_nil_of_mem hf
  have hcur : mapHas (diffPhase env prev).1 (env.norm f) = false := by
    by_cases h : mapHas (diffPhase env prev).1 (env.norm f) = true
    · obtain ⟨g, hg, hn, hr⟩ := (diffPhase_has env prev (env.norm f)).mp h
      exact absurd (hkey g hg hn) hr
    · exact Bool.eq_false_iff.mpr h
  have hkprev : mapHas prev (env.norm f) = true := by
    rw [mapHas_eq_isSome, hprev]
    rfl
  have hkdel : env.norm f ∈ deletedFilesOf prev (diffPhase env prev).1 :=
    (deletedFilesOf_mem prev _ _).mpr ⟨(mem_mapKeys prev _).mpr hkprev, hcur⟩
  have hnotfast : ¬ ((diffPhase env prev).2 = [] ∧
      deletedFilesOf prev (diffPhase env prev).1 = []) := by
    rintro ⟨-, h2⟩
    rw [h2] at hkdel
    exact absurd hkdel (List.not_mem_nil _)
  rw [indexRun_not_fast env prev hne hnotfast]
  exact ⟨hkdel, List.mem_map_of_mem deleteFilePointsFilter hkdel,
    (diffPhase env prev).1, rfl, (mapFind?_eq_none_iff _ _).mpr hcur⟩

/-- Witness for C9: file `b` exists in the enumeration but is unreadable,
was tracked in prior state, and is treated as deleted. -/
theorem unreadable_file_counts_as_deleted_witness :
    envTwo.norm "b" ∈ (indexRun envTwo [("b", "h")]).deletedFiles ∧
    deleteFilePointsFilter (envTwo.norm "b") ∈ (indexRun envTwo [("b", "h")]).deleteCalls ∧
    ∃ cur, (indexRun envTwo [("b", "h")]).savedState = some cur ∧
      mapFind? cur (envTwo.norm "b") = none :=
  unreadable_file_counts_as_deleted envTwo [("b", "h")] "b" "h"
    (by simp [envTwo]) (by decide) (by decide)
    (by intro g hg hn; simp [envTwo] at hg hn ⊢; rcases hg with rfl | rfl <;> simp_all [envTwo])

/-! # Claim theorems for the similarity function -/

theorem pairCandidates_mem (chunks : List CodeChunkPayload)
    (vectors : List (List ℚ)) (t : ℚ) (p : PairCandidate) :
    p ∈ pairCandidates chunks vectors t ↔
      ∃ i j, i < j ∧ j < vectors.length ∧
        t ≤ CosineSim (vectors.getD i []) (vectors.getD j []) ∧
        isTrivialPair (chunks.getD i default) (chunks.getD j default) = false ∧
        p = { A := chunks.getD i default, B := chunks.getD j default,
              score := CosineSim (vectors.getD i []) (vectors.getD j []) } := by
  unfold pairCandidates
  rw [List.mem_flatMap]
  constructor
  · rintro ⟨i, hi, hp⟩
    rw [List.mem_filterMap] at hp
    obtain ⟨j, hj, hpj⟩ := hp
    rw [List.mem_range] at hj
    by_cases hij : i < j
    · rw [if_pos hij] at hpj
      dsimp only at hpj
      by_cases hc : t ≤ CosineSim (vectors.getD i []) (vectors.getD j []) ∧
          ¬ (isTrivialPair (chunks.getD i default) (chunks.getD j default) = true)
      · rw [if_pos hc] at hpj
        obtain rfl := Option.some.inj hpj
        exact ⟨i, j, hij, hj, hc.1, by simpa using hc.2, rfl⟩
      · rw [if_neg hc] at hpj
        cases hpj
    · rw [if_neg hij] at hpj
      cases hpj
  · rintro ⟨i, j, hij, hj, hsc, htr, rfl⟩
    refine ⟨i, List.mem_range.mpr (lt_trans hij hj), ?_⟩
    rw [List.mem_filterMap]
    refine ⟨j, List.mem_range.mpr hj, ?_⟩
    rw [if_pos hij]
    dsimp only
    rw [if_pos ⟨hsc, by simp only [Bool.not_eq_true]; exact htr⟩]


theorem cosineSim_pair_eval : CosineSim [2] [2] = 1/4 := by
  unfold CosineSim dotAcc normAcc
  simp only [List.zip_cons_cons, List.zip_nil_right, List.map_cons, List.map_nil,
    List.sum_cons, List.sum_nil, List.length_cons, List.length_nil]
  norm_num

/-- C1 (code bug): `FindDuplicates` scores every pair with `utils.CosineSim`,
whose final division is by `normA * normB`, the product of the two SUMS OF
SQUARES, with no square roots taken, so the assigned score is not
`dot(a,b) / (||a|| * ||b||)`: at `a = b = [2]` the code emits a candidate
scored `1/4` while true cosine similarity yields `1`. -/
theorem cosineSim_is_not_true_cosine :
    CosineSim [2] [2] = 1/4 ∧
    ({ A := chunkX, B := chunkY, score := CosineSim [2] [2] } : PairCandidate)
      ∈ pairCandidates [chunkX, chunkY] [[2], [2]] 0 ∧
    specCosineSim [2] [2] = 1 ∧
    ((CosineSim [2] [2] : ℚ) : ℝ) ≠ specCosineSim [2] [2] := by
  have h1 : CosineSim [2] [2] = 1/4 := cosineSim_pair_eval
  have h2 : specCosineSim [2] [2] = 1 := by
    unfold specCosineSim
    simp only [List.zip_cons_cons, List.zip_nil_right, List.map_cons, List.map_nil,
      List.sum_cons, List.sum_nil]
    have hc : (((2:ℚ):ℝ) * ((2:ℚ):ℝ) + 0) = 4 := by norm_num
    rw [hc, Real.mul_self_sqrt (by norm_num : (0:ℝ) ≤ 4)]
    norm_num
  have h3 : ({ A := chunkX, B := chunkY, score := CosineSim [2] [2] } : PairCandidate)
      ∈ pairCandidates [chunkX, chunkY] [[2], [2]] 0 := by
    rw [pairCandidates_mem]
    refine ⟨0, 1, by norm_num, by norm_num, ?_, by decide, rfl⟩
    show (0:ℚ) ≤ CosineSim [2] [2]
    rw [h1]
    norm_num
  refine ⟨h1, h3, h2, ?_⟩
  rw [h1, h2]
  norm_num

/-- C10: `utils.CosineSim` is total and returns exactly 0 when the vectors
have different lengths or either vector is all-zero; otherwise both
sums of squares are nonzero and the division is well defined. -/
theorem cosineSim_zero_cases (a b : List ℚ) :
    (CosineSim a b = 0 ∨
      (normAcc a ≠ 0 ∧ normAcc b ≠ 0 ∧
        CosineSim a b = dotAcc a b / (normAcc a * normAcc b))) ∧
    (a.length ≠ b.length → CosineSim a b = 0) ∧
    ((∀ x ∈ a, x = 0) → CosineSim a b = 0) ∧
    ((∀ x ∈ b, x = 0) → CosineSim a b = 0) := by
  have hzero : ∀ (l : List ℚ), (∀ x ∈ l, x = 0) → normAcc l = 0 := by
    intro l hl
    unfold normAcc
    apply List.sum_eq_zero
    intro y hy
    rw [List.mem_map] at hy
    obtain ⟨x, hx, rfl⟩ := hy
    rw [hl x hx]
    ring
  unfold CosineSim
  by_cases hlen : a.length ≠ b.length
  · simp [hlen]
  · rw [if_neg hlen]
    dsimp only
    by_cases hn : normAcc a = 0 ∨ normAcc b = 0
    · rw [if_pos hn]
      exact ⟨Or.inl rfl, fun h => absurd h hlen, fun _ => rfl, fun _ => rfl⟩
    · rw [if_neg hn]
      push_neg at hn
      refine ⟨Or.inr ⟨hn.1, hn.2, rfl⟩, fun h => absurd h hlen, ?_, ?_⟩
      · intro h
        exact absurd (hzero a h) hn.1
      · intro h
        exact absurd (hzero b h) hn.2

/-- Witness for C10: vectors of different lengths score 0. -/
theorem cosineSim_zero_cases_witness : CosineSim [1] [1, 2] = 0 :=
  (cosineSim_zero_cases [1] [1, 2]).2.1 (by decide)

/-! # Claim theorems for the triviality filter -/

/-- C3: a pair of chunks is trivial — and therefore never emitted as a
`PairCandidate`, whatever the threshold and scores — exactly when both are
in the same file sharing a start or end line, or either spans fewer than 3
lines; conversely every index pair that reaches the threshold and is not
trivial is emitted. -/
theorem trivial_pairs_never_candidates (chunks : List CodeChunkPayload)
    (vectors : List (List ℚ)) (threshold : ℚ) :
    (∀ a b : CodeChunkPayload,
      isTrivialPair a b = true ↔
        ((a.filePath = b.filePath ∧
            (a.startLine = b.startLine ∨ a.endLine = b.endLine)) ∨
          a.endLine - a.startLine + 1 < 3 ∨ b.endLine - b.startLine + 1 < 3)) ∧
    (∀ p ∈ pairCandidates chunks vectors threshold,
      isTrivialPair p.A p.B = false) ∧
    (∀ i j, i < j → j < vectors.length →
      threshold ≤ CosineSim (vectors.getD i []) (vectors.getD j []) →
      isTrivialPair (chunks.getD i default) (chunks.getD j default) = false →
      ({ A := chunks.getD i default, B := chunks.getD j default,
         score := CosineSim (vectors.getD i []) (vectors.getD j []) } : PairCandidate)
        ∈ pairCandidates chunks vectors threshold) := by
  refine ⟨?_, ?_, ?_⟩
  · intro a b
    unfold isTrivialPair
    by_cases h1 : a.filePath = b.filePath ∧
        (a.startLine = b.startLine ∨ a.endLine = b.endLine)
    · rw [if_pos h1]
      exact iff_of_true rfl (Or.inl h1)
    · rw [if_neg h1]
      by_cases h2 : a.endLine - a.startLine + 1 < 3 ∨ b.endLine - b.startLine + 1 < 3
      · rw [if_pos h2]
        exact iff_of_true rfl (Or.inr h2)
      · rw [if_neg h2]
        exact iff_of_false (by simp) (fun h => h.elim h1 h2)
  · intro p hp
    rw [pairCandidates_mem] at hp
    obtain ⟨i, j, -, -, -, htr, rfl⟩ := hp
    exact htr
  · intro i j hij hj hsc htr
    rw [pairCandidates_mem]
    exact ⟨i, j, hij, hj, hsc, htr, rfl⟩

/-- Witness for C3: two non-trivial chunks in distinct files with score
`1/4 ≥ 0` are emitted as a candidate. -/
theorem trivial_pairs_never_candidates_witness :
    ({ A := chunkX, B := chunkY, score := CosineSim [2] [2] } : PairCandidate)
      ∈ pairCandidates [chunkX, chunkY] [[2], [2]] 0 :=
  (trivial_pairs_never_candidates [chunkX, chunkY] [[2], [2]] 0).2.2 0 1
    (by norm_num) (by norm_num)
    (by show (0:ℚ) ≤ CosineSim [2] [2]; rw [cosineSim_pair_eval]; norm_num)
    (by decide)


theorem pstep_set (P : List (String × String)) (k v y : String) :
    pstep (mapSet P k v) y = if y = k then v else pstep P y := by
  unfold pstep
  rw [mapGet_eq_getD, mapGet_eq_getD, mapFind?_set]
  by_cases h : y = k <;> simp [h]


theorem reaches_self (P : List (String × String)) (r : String)
    (h : isRootP P r) : Reaches P r r :=
  ⟨0, rfl, h⟩

theorem iter_root_fixed (P : List (String × String)) (r : String)
    (h : isRootP P r) (n : Nat) : (pstep P)^[n] r = r :=
  Function.iterate_fixed h n

theorem reaches_unique (P : List (String × String)) (x r s : String)
    (hr : Reaches P x r) (hs : Reaches P x s) : r = s := by
  obtain ⟨n, hn, hnr⟩ := hr
  obtain ⟨m, hm, hms⟩ := hs
  rcases Nat.le_total n m with h | h
  · obtain ⟨k, rfl⟩ := Nat.exists_eq_add_of_le h
    rw [Nat.add_comm, Function.iterate_add_apply, hn, iter_root_fixed P r hnr] at hm
    exact hm
  · obtain ⟨k, rfl⟩ := Nat.exists_eq_add_of_le h
    rw [Nat.add_comm, Function.iterate_add_apply, hm, iter_root_fixed P s hms] at hn
    exact hn.symm

theorem reaches_extend (P : List (String × String)) (x r : String)
    (h : Reaches P (pstep P x) r) : Reaches P x r := by
  obtain ⟨n, hn, hr⟩ := h
  exact ⟨n + 1, by rw [Function.iterate_succ_apply]; exact hn, hr⟩

theorem reaches_shift (P : List (String × String)) (x r y : String) (i : Nat)
    (hy : (pstep P)^[i] y = x) (h : Reaches P x r) : Reaches P y r := by
  obtain ⟨n, hn, hr⟩ := h
  refine ⟨n + i, ?_, hr⟩
  rw [Function.iterate_add_apply, hy, hn]

theorem reaches_iter (P : List (String × String)) (x r : String) (i : Nat)
    (h : Reaches P x r) : Reaches P ((pstep P)^[i] x) r := by
  obtain ⟨n, hn, hr⟩ := h
  rcases Nat.le_total i n with hle | hle
  · obtain ⟨k, rfl⟩ := Nat.exists_eq_add_of_le hle
    refine ⟨k, ?_, hr⟩
    rw [← Function.iterate_add_apply, Nat.add_comm]
    exact hn
  · obtain ⟨k, rfl⟩ := Nat.exists_eq_add_of_le hle
    have hik : (pstep P)^[n + k] x = r := by
      rw [Nat.add_comm, Function.iterate_add_apply, hn, iter_root_fixed P r hr]
    rw [hik]
    exact reaches_self P r hr

theorem iter_mem_keys (P : List (String × String))
    (hc : ∀ k ∈ mapKeys P, pstep P k ∈ mapKeys P) (x : String)
    (hx : x ∈ mapKeys P) (n : Nat) : (pstep P)^[n] x ∈ mapKeys P := by
  induction n with
  | zero => simpa using hx
  | succ m ih =>
    rw [Function.iterate_succ_apply']
    exact hc _ ih

theorem iter_congr_of_ne (P Q : List (String × String)) (x : String)
    (hstep : ∀ z, z ≠ x → pstep Q z = pstep P z) (y : String) :
    ∀ n, (∀ j, j < n → (pstep P)^[j] y ≠ x) →
      (pstep Q)^[n] y = (pstep P)^[n] y := by
  intro n
  induction n with
  | zero => intro _; rfl
  | succ m ih =>
    intro h
    rw [Function.iterate_succ_apply', Function.iterate_succ_apply',
      ih (fun j hj => h j (Nat.lt_succ_of_lt hj)),
      hstep _ (h m (Nat.lt_succ_self m))]

theorem exists_min_hit (P : List (String × String)) (y x : String) (i0 : Nat)
    (h : (pstep P)^[i0] y = x) :
    ∃ i, i ≤ i0 ∧ (pstep P)^[i] y = x ∧ ∀ j, j < i → (pstep P)^[j] y ≠ x := by
  have hex : ∃ i, (pstep P)^[i] y = x := ⟨i0, h⟩
  exact ⟨Nat.find hex, Nat.find_le h, Nat.find_spec hex,
    fun j hj => Nat.find_min hex hj⟩

theorem set_step_reaches (P : List (String × String)) (x w : String)
    (hw : isRootP P w) (hne : x ≠ w) (y s : String) :
    Reaches (mapSet P x w) y s ↔
      ((∃ i, (pstep P)^[i] y = x) ∧ s = w) ∨
      ((∀ i, (pstep P)^[i] y ≠ x) ∧ Reaches P y s) := by
  have hstep : ∀ z, z ≠ x → pstep (mapSet P x w) z = pstep P z := by
    intro z hz
    rw [pstep_set]
    exact if_neg hz
  have hsx : pstep (mapSet P x w) x = w := by
    rw [pstep_set]
    exact if_pos rfl
  have hrootw : isRootP (mapSet P x w) w := by
    unfold isRootP
    rw [pstep_set, if_neg (fun h => hne h.symm)]
    exact hw
  have hxw : Reaches (mapSet P x w) x w :=
    ⟨1, by rw [Function.iterate_one]; exact hsx, hrootw⟩
  constructor
  · rintro ⟨m, hm, hs⟩
    by_cases hhit : ∃ i, i ≤ m ∧ (pstep (mapSet P x w))^[i] y = x
    · obtain ⟨i, -, hi⟩ := hhit
      obtain ⟨i', -, hi', hmin⟩ := exists_min_hit (mapSet P x w) y x i hi
      have heq : (pstep P)^[i'] y = (pstep (mapSet P x w))^[i'] y :=
        iter_congr_of_ne (mapSet P x w) P x
          (fun z hz => (hstep z hz).symm) y i' hmin
      have hpre : (pstep P)^[i'] y = x := heq.trans hi'
      have hyw : Reaches (mapSet P x w) y w :=
        reaches_shift (mapSet P x w) x w y i' hi' hxw
      exact Or.inl ⟨⟨i', hpre⟩,
        reaches_unique (mapSet P x w) y s w ⟨m, hm, hs⟩ hyw⟩
    · push_neg at hhit
      have hsne : s ≠ x := by
        intro h
        subst h
        exact hne ((hsx.symm.trans hs).symm)
      have havoid : ∀ i, (pstep (mapSet P x w))^[i] y ≠ x := by
        intro i
        rcases Nat.le_total i m with hle | hle
        · exact hhit i hle
        · obtain ⟨c, rfl⟩ := Nat.exists_eq_add_of_le hle
          rw [Nat.add_comm, Function.iterate_add_apply, hm,
            iter_root_fixed (mapSet P x w) s hs]
          exact hsne
      have hEq : ∀ n, (pstep P)^[n] y = (pstep (mapSet P x w))^[n] y :=
        fun n => iter_congr_of_ne (mapSet P x w) P x
          (fun z hz => (hstep z hz).symm) y n (fun j _ => havoid j)
      refine Or.inr ⟨fun i => by rw [hEq i]; exact havoid i, m, ?_, ?_⟩
      · rw [hEq m]
        exact hm
      · unfold isRootP
        rw [← hstep s hsne]
        exact hs
  · rintro (⟨⟨i, hi⟩, hsw⟩ | ⟨havoid, m, hm, hs⟩)
    · obtain ⟨i', -, hi', hmin⟩ := exists_min_hit P y x i hi
      have hpre : (pstep (mapSet P x w))^[i'] y = x := by
        rw [iter_congr_of_ne P (mapSet P x w) x hstep y i' hmin]
        exact hi'
      rw [hsw]
      exact reaches_shift (mapSet P x w) x w y i' hpre hxw
    · have hEq : ∀ n, (pstep (mapSet P x w))^[n] y = (pstep P)^[n] y :=
        fun n => iter_congr_of_ne P (mapSet P x w) x hstep y n (fun j _ => havoid j)
      have hsne : s ≠ x := fun h => havoid m (by rw [hm, h])
      refine ⟨m, by rw [hEq m]; exact hm, ?_⟩
      unfold isRootP
      rw [hstep s hsne]
      exact hs

theorem mapKeys_set_mem (P : List (String × String)) (x w : String)
    (hx : x ∈ mapKeys P) : mapKeys (mapSet P x w) = mapKeys P := by
  rw [mapKeys_set, if_pos ((mem_mapKeys P x).mp hx)]

theorem compress_spec (P : List (String × String)) (x r : String)
    (inv : UFInv P) (hx : x ∈ mapKeys P) (hr : Reaches P x r) (hne : x ≠ r) :
    UFInv (mapSet P x r) ∧ mapKeys (mapSet P x r) = mapKeys P ∧
    (∀ y s, Reaches (mapSet P x r) y s ↔ Reaches P y s) ∧
    (∀ z, isRootP (mapSet P x r) z ↔ isRootP P z) := by
  obtain ⟨n0, hn0, hr0⟩ := hr
  have hkeys := mapKeys_set_mem P x r hx
  have hiff : ∀ y s, Reaches (mapSet P x r) y s ↔ Reaches P y s := by
    intro y s
    rw [set_step_reaches P x r hr0 hne y s]
    constructor
    · rintro (⟨⟨i, hi⟩, rfl⟩ | ⟨-, h⟩)
      · exact reaches_shift P x s y i hi ⟨n0, hn0, hr0⟩
      · exact h
    · intro h
      by_cases hhit : ∃ i, (pstep P)^[i] y = x
      · obtain ⟨i, hi⟩ := hhit
        have hyr : Reaches P y r := reaches_shift P x r y i hi ⟨n0, hn0, hr0⟩
        exact Or.inl ⟨⟨i, hi⟩, reaches_unique P y s r h hyr⟩
      · push_neg at hhit
        exact Or.inr ⟨hhit, h⟩
  have hroots : ∀ z, isRootP (mapSet P x r) z ↔ isRootP P z := by
    intro z
    by_cases hz : z = x
    · subst hz
      unfold isRootP
      rw [pstep_set, if_pos rfl]
      constructor
      · intro h
        exact absurd h.symm hne
      · intro h
        exact absurd
          (reaches_unique P z z r (reaches_self P z h) ⟨n0, hn0, hr0⟩) hne
    · unfold isRootP
      rw [pstep_set, if_neg hz]
  refine ⟨⟨?_, ?_, ?_⟩, hkeys, hiff, hroots⟩
  · rw [hkeys]
    exact inv.nodupKeys
  · intro k hk
    rw [hkeys] at hk ⊢
    rw [pstep_set]
    by_cases hkx : k = x
    · rw [if_pos hkx]
      have hmem := iter_mem_keys P inv.closed x hx n0
      rwa [hn0] at hmem
    · rw [if_neg hkx]
      exact inv.closed k hk
  · intro k hk
    rw [hkeys] at hk
    obtain ⟨s, hs⟩ := inv.rooted k hk
    exact ⟨s, (hiff k s).mpr hs⟩

theorem link_spec (P : List (String × String)) (px py : String)
    (inv : UFInv P) (hpx : px ∈ mapKeys P) (hpy : py ∈ mapKeys P)
    (hrx : isRootP P px) (hry : isRootP P py) (hne : px ≠ py) :
    UFInv (mapSet P px py) ∧ mapKeys (mapSet P px py) = mapKeys P ∧
    (∀ y s, Reaches (mapSet P px py) y s ↔
      ∃ s0, Reaches P y s0 ∧ s = if s0 = px then py else s0) := by
  have hkeys := mapKeys_set_mem P px py hpx
  have hiff : ∀ y s, Reaches (mapSet P px py) y s ↔
      ∃ s0, Reaches P y s0 ∧ s = if s0 = px then py else s0 := by
    intro y s
    rw [set_step_reaches P px py hry hne y s]
    constructor
    · rintro (⟨⟨i, hi⟩, rfl⟩ | ⟨havoid, h⟩)
      · exact ⟨px, reaches_shift P px px y i hi (reaches_self P px hrx),
          by rw [if_pos rfl]⟩
      · obtain ⟨m, hm, hsr⟩ := h
        have hspx : s ≠ px := fun hspx => havoid m (by rw [hm, hspx])
        exact ⟨s, ⟨m, hm, hsr⟩, by rw [if_neg hspx]⟩
    · rintro ⟨s0, h0, rfl⟩
      by_cases hs0 : s0 = px
      · subst hs0
        obtain ⟨m, hm, -⟩ := h0
        rw [if_pos rfl]
        exact Or.inl ⟨⟨m, hm⟩, rfl⟩
      · rw [if_neg hs0]
        refine Or.inr ⟨?_, h0⟩
        intro i hi
        have hypx : Reaches P y px :=
          reaches_shift P px px y i hi (reaches_self P px hrx)
        exact hs0 (reaches_unique P y s0 px h0 hypx)
  refine ⟨⟨?_, ?_, ?_⟩, hkeys, hiff⟩
  · rw [hkeys]
    exact inv.nodupKeys
  · intro k hk
    rw [hkeys] at hk ⊢
    rw [pstep_set]
    by_cases hkx : k = px
    · rw [if_pos hkx]
      exact hpy
    · rw [if_neg hkx]
      exact inv.closed k hk
  · intro k hk
    rw [hkeys] at hk
    obtain ⟨s, hs⟩ := inv.rooted k hk
    exact ⟨if s = px then py else s, (hiff k _).mpr ⟨s, hs, rfl⟩⟩

theorem insert_fresh_spec (P : List (String × String)) (k : String)
    (inv : UFInv P) (hk : mapHas P k = false) :
    UFInv (mapSet P k k) ∧ mapKeys (mapSet P k k) = mapKeys P ++ [k] ∧
    (∀ y ∈ mapKeys P, ∀ s, (Reaches (mapSet P k k) y s ↔ Reaches P y s)) ∧
    Reaches (mapSet P k k) k k ∧
    (∀ s, Reaches (mapSet P k k) k s → s = k) ∧
    (∀ y ∈ mapKeys P, ∀ s, Reaches P y s → s ≠ k) := by
  have hkeys : mapKeys (mapSet P k k) = mapKeys P ++ [k] := by
    rw [mapKeys_set, if_neg (by rw [hk]; simp)]
  have hknot : k ∉ mapKeys P := by
    rw [mem_mapKeys, hk]
    simp
  have hstep : ∀ z, z ≠ k → pstep (mapSet P k k) z = pstep P z := fun z hz => by
    rw [pstep_set, if_neg hz]
  have hstepk : pstep (mapSet P k k) k = k := by
    rw [pstep_set, if_pos rfl]
  have havoid : ∀ y ∈ mapKeys P, ∀ i, (pstep P)^[i] y ≠ k :=
    fun y hy i h => hknot (h ▸ iter_mem_keys P inv.closed y hy i)
  have hEq : ∀ y ∈ mapKeys P, ∀ n, (pstep (mapSet P k k))^[n] y = (pstep P)^[n] y :=
    fun y hy n =>
      iter_congr_of_ne P (mapSet P k k) k hstep y n (fun j _ => havoid y hy j)
  have hold : ∀ y ∈ mapKeys P, ∀ s, (Reaches (mapSet P k k) y s ↔ Reaches P y s) := by
    intro y hy s
    constructor
    · rintro ⟨m, hm, hs⟩
      rw [hEq y hy m] at hm
      have hsk : s ≠ k := fun h => havoid y hy m (by rw [hm, h])
      refine ⟨m, hm, ?_⟩
      unfold isRootP
      rw [← hstep s hsk]
      exact hs
    · rintro ⟨m, hm, hs⟩
      have hsk : s ≠ k := fun h => havoid y hy m (by rw [hm, h])
      refine ⟨m, by rw [hEq y hy m]; exact hm, ?_⟩
      unfold isRootP
      rw [hstep s hsk]
      exact hs
  have hkk : Reaches (mapSet P k k) k k := ⟨0, rfl, hstepk⟩
  refine ⟨⟨?_, ?_, ?_⟩, hkeys, hold, hkk, ?_, ?_⟩
  · rw [hkeys]
    rw [List.nodup_append]
    exact ⟨inv.nodupKeys, List.nodup_singleton k,
      by simpa [List.disjoint_singleton] using hknot⟩
  · intro z hz
    rw [hkeys] at hz ⊢
    rcases List.mem_append.mp hz with hzP | hzk
    · rw [hstep z (fun h => hknot (h ▸ hzP))]
      exact List.mem_append.mpr (Or.inl (inv.closed z hzP))
    · rw [List.mem_singleton] at hzk
      subst hzk
      rw [hstepk]
      exact List.mem_append.mpr (Or.inr (List.mem_singleton_self z))
  · intro z hz
    rw [hkeys] at hz
    rcases List.mem_append.mp hz with hzP | hzk
    · obtain ⟨s, hs⟩ := inv.rooted z hzP
      exact ⟨s, (hold z hzP s).mpr hs⟩
    · rw [List.mem_singleton] at hzk
      subst hzk
      exact ⟨z, hkk⟩
  · rintro s ⟨m, hm, -⟩
    rw [Function.iterate_fixed hstepk m] at hm
    exact hm.symm
  · intro y hy s hs
    obtain ⟨m, hm, -⟩ := hs
    exact fun h => havoid y hy m (by rw [hm, h])

theorem reaches_depth_lt (P : List (String × String)) (x : String)
    (inv : UFInv P) (hx : x ∈ mapKeys P) :
    ∃ n r, n < (mapKeys P).length ∧ (pstep P)^[n] x = r ∧ isRootP P r := by
  obtain ⟨r0, m, hm, hr0⟩ := inv.rooted x hx
  have hex : ∃ i, isRootP P ((pstep P)^[i] x) := ⟨m, by rw [hm]; exact hr0⟩
  refine ⟨Nat.find hex, (pstep P)^[Nat.find hex] x, ?_, rfl, Nat.find_spec hex⟩
  have key : ∀ i j, i < j → j ≤ Nat.find hex →
      (pstep P)^[i] x ≠ (pstep P)^[j] x := by
    intro i j hij hjn heq
    obtain ⟨a, ha⟩ : ∃ a, Nat.find hex = a + j :=
      ⟨Nat.find hex - j, (Nat.sub_add_cancel hjn).symm⟩
    have hshift : (pstep P)^[a + j] x = (pstep P)^[a + i] x := by
      rw [Function.iterate_add_apply, Function.iterate_add_apply, heq]
    have hroot2 : isRootP P ((pstep P)^[a + i] x) := by
      rw [← hshift, ← ha]
      exact Nat.find_spec hex
    have hlt : a + i < Nat.find hex := by omega
    exact Nat.find_min hex hlt hroot2
  have hnodup : ((List.range (Nat.find hex + 1)).map
      (fun i => (pstep P)^[i] x)).Nodup := by
    apply List.Nodup.map_on ?_ (List.nodup_range _)
    intro i hi j hj heq
    rw [List.mem_range] at hi hj
    by_contra hij
    rcases Nat.lt_or_ge i j with h | h
    · exact key i j h (Nat.lt_succ_iff.mp hj) heq
    · exact key j i (lt_of_le_of_ne h (Ne.symm hij)) (Nat.lt_succ_iff.mp hi) heq.symm
  have hlen : Nat.find hex + 1 ≤ (mapKeys P).length := by
    have h1 : ((List.range (Nat.find hex + 1)).map
        fun i => (pstep P)^[i] x).length = Nat.find hex + 1 := by simp
    have h2 := List.toFinset_card_of_nodup hnodup
    have h3 : ((List.range (Nat.find hex + 1)).map
        fun i => (pstep P)^[i] x).toFinset ⊆ (mapKeys P).toFinset := by
      intro z hz
      rw [List.mem_toFinset] at hz ⊢
      rw [List.mem_map] at hz
      obtain ⟨i, -, rfl⟩ := hz
      exact iter_mem_keys P inv.closed x hx i
    have h4 := Finset.card_le_card h3
    have h5 := (mapKeys P).toFinset_card_le
    omega
  omega

theorem ufFind_spec : ∀ (fuel : Nat) (P : List (String × String)) (x r : String)
    (n : Nat), UFInv P → x ∈ mapKeys P →
    (pstep P)^[n] x = r → isRootP P r → n ≤ fuel →
    (ufFind fuel P x).1 = r ∧ UFInv (ufFind fuel P x).2 ∧
    mapKeys (ufFind fuel P x).2 = mapKeys P ∧
    (∀ y s, Reaches (ufFind fuel P x).2 y s ↔ Reaches P y s) ∧
    (∀ z, isRootP (ufFind fuel P x).2 z ↔ isRootP P z) := by
  intro fuel
  induction fuel with
  | zero =>
    intro P x r n inv hx hn hr hfuel
    have hn0 : n = 0 := Nat.le_zero.mp hfuel
    subst hn0
    simp only [Function.iterate_zero_apply] at hn
    subst hn
    unfold ufFind
    exact ⟨hr, inv, rfl, fun y s => Iff.rfl, fun z => Iff.rfl⟩
  | succ fuel ih =>
    intro P x r n inv hx hn hr hfuel
    unfold ufFind
    dsimp only
    by_cases hpx : mapGet P "" x = x
    · rw [if_pos hpx]
      have hxx : isRootP P x := hpx
      have hrx : r = x := reaches_unique P x r x ⟨n, hn, hr⟩ (reaches_self P x hxx)
      subst hrx
      exact ⟨rfl, inv, rfl, fun y s => Iff.rfl, fun z => Iff.rfl⟩
    · rw [if_neg hpx]
      cases n with
      | zero =>
        simp only [Function.iterate_zero_apply] at hn
        subst hn
        exact absurd hr hpx
      | succ m =>
        have hn' : (pstep P)^[m] (pstep P x) = r := by
          rw [← Function.iterate_succ_apply]
          exact hn
        have hpxk : pstep P x ∈ mapKeys P := inv.closed x hx
        have hmle : m ≤ fuel := Nat.succ_le_succ_iff.mp hfuel
        obtain ⟨h1, hinv1, hkeys1, hreach1, hroot1⟩ :=
          ih P (pstep P x) r m inv hpxk hn' hr hmle
        have hx1 : x ∈ mapKeys (ufFind fuel P (pstep P x)).2 := by
          rw [hkeys1]
          exact hx
        have hr1 : Reaches (ufFind fuel P (pstep P x)).2 x r :=
          (hreach1 x r).mpr ⟨m + 1, hn, hr⟩
        have hxr : x ≠ r := by
          intro h
          rw [← h] at hr
          exact hpx hr
        obtain ⟨cinv, ckeys, creach, croot⟩ :=
          compress_spec (ufFind fuel P (pstep P x)).2 x r hinv1 hx1 hr1 hxr
        rw [show mapGet P "" x = pstep P x from rfl, h1]
        refine ⟨rfl, cinv, ?_, ?_, ?_⟩
        · rw [ckeys, hkeys1]
        · intro y s
          rw [creach y s, hreach1 y s]
        · intro z
          rw [croot z, hroot1 z]

theorem ufFind_call (P : List (String × String)) (x : String)
    (inv : UFInv P) (hx : x ∈ mapKeys P) :
    Reaches P x (ufFind P.length P x).1 ∧
    UFInv (ufFind P.length P x).2 ∧
    mapKeys (ufFind P.length P x).2 = mapKeys P ∧
    (∀ y s, Reaches (ufFind P.length P x).2 y s ↔ Reaches P y s) ∧
    (∀ z, isRootP (ufFind P.length P x).2 z ↔ isRootP P z) := by
  obtain ⟨n, r, hlt, hn, hr⟩ := reaches_depth_lt P x inv hx
  have hlenk : (mapKeys P).length = P.length := by simp [mapKeys]
  have hfuel : n ≤ P.length := by omega
  obtain ⟨h1, h2, h3, h4, h5⟩ := ufFind_spec P.length P x r n inv hx hn hr hfuel
  rw [h1]
  exact ⟨⟨n, hn, hr⟩, h2, h3, h4, h5⟩

theorem length_eq_of_mapKeys_eq {α β : Type} (P : List (String × α))
    (Q : List (String × β)) (h : mapKeys Q = mapKeys P) : Q.length = P.length := by
  have h2 : (mapKeys Q).length = (mapKeys P).length := by rw [h]
  simpa [mapKeys] using h2

theorem rootEq_symm (P : List (String × String)) (a b : String)
    (h : RootEq P a b) : RootEq P b a := by
  obtain ⟨r, ha, hb⟩ := h
  exact ⟨r, hb, ha⟩

theorem rootEq_trans (P : List (String × String)) (a b c : String)
    (hab : RootEq P a b) (hbc : RootEq P b c) : RootEq P a c := by
  obtain ⟨r, ha, hb⟩ := hab
  obtain ⟨s, hb', hc⟩ := hbc
  rw [reaches_unique P b r s hb hb'] at ha
  exact ⟨s, ha, hc⟩

theorem rootEq_congr (P Q : List (String × String))
    (h : ∀ y s, Reaches Q y s ↔ Reaches P y s) (a b : String) :
    RootEq Q a b ↔ RootEq P a b := by
  unfold RootEq
  constructor
  · rintro ⟨r, ha, hb⟩
    exact ⟨r, (h a r).mp ha, (h b r).mp hb⟩
  · rintro ⟨r, ha, hb⟩
    exact ⟨r, (h a r).mpr ha, (h b r).mpr hb⟩

theorem reaches_iff_rootEq (Q : List (String × String)) (x px a : String)
    (hx : Reaches Q x px) : Reaches Q a px ↔ RootEq Q a x := by
  constructor
  · intro h
    exact ⟨px, h, hx⟩
  · rintro ⟨r, har, hxr⟩
    rw [reaches_unique Q x r px hxr hx] at har
    exact har

theorem link_rootEq (Q : List (String × String)) (u v : String)
    (inv : UFInv Q) (hu : u ∈ mapKeys Q) (hv : v ∈ mapKeys Q)
    (hru : isRootP Q u) (hrv : isRootP Q v) (hne : u ≠ v) (a b : String) :
    RootEq (mapSet Q u v) a b ↔
      (RootEq Q a b ∨ (Reaches Q a u ∧ Reaches Q b v) ∨
        (Reaches Q a v ∧ Reaches Q b u)) := by
  obtain ⟨-, -, hchar⟩ := link_spec Q u v inv hu hv hru hrv hne
  constructor
  · rintro ⟨r, hra, hrb⟩
    obtain ⟨sa, hsa, hra'⟩ := (hchar a r).mp hra
    obtain ⟨sb, hsb, hrb'⟩ := (hchar b r).mp hrb
    by_cases hau : sa = u
    · rw [if_pos hau] at hra'
      rw [hau] at hsa
      by_cases hbu : sb = u
      · rw [hbu] at hsb
        exact Or.inl ⟨u, hsa, hsb⟩
      · rw [if_neg hbu] at hrb'
        have hsbv : sb = v := by rw [← hrb', hra']
        rw [hsbv] at hsb
        exact Or.inr (Or.inl ⟨hsa, hsb⟩)
    · rw [if_neg hau] at hra'
      by_cases hbu : sb = u
      · rw [if_pos hbu] at hrb'
        have hsav : sa = v := by rw [← hra', hrb']
        rw [hsav] at hsa
        rw [hbu] at hsb
        exact Or.inr (Or.inr ⟨hsa, hsb⟩)
      · rw [if_neg hbu] at hrb'
        rw [← hra'] at hsa
        rw [← hrb'] at hsb
        exact Or.inl ⟨r, hsa, hsb⟩
  · have hvne : ¬ (v = u) := fun h => hne h.symm
    rintro (⟨r, ha, hb⟩ | ⟨ha, hb⟩ | ⟨ha, hb⟩)
    · exact ⟨if r = u then v else r, (hchar a _).mpr ⟨r, ha, rfl⟩,
        (hchar b _).mpr ⟨r, hb, rfl⟩⟩
    · exact ⟨v, (hchar a v).mpr ⟨u, ha, by rw [if_pos rfl]⟩,
        (hchar b v).mpr ⟨v, hb, by rw [if_neg hvne]⟩⟩
    · exact ⟨v, (hchar a v).mpr ⟨v, ha, by rw [if_neg hvne]⟩,
        (hchar b v).mpr ⟨u, hb, by rw [if_pos rfl]⟩⟩

theorem ufUnion_spec (P : List (String × String)) (R : List (String × Int))
    (x y : String) (inv : UFInv P) (hx : x ∈ mapKeys P) (hy : y ∈ mapKeys P) :
    UFInv (ufUnion P R x y).1 ∧ mapKeys (ufUnion P R x y).1 = mapKeys P ∧
    (∀ a b, RootEq (ufUnion P R x y).1 a b ↔
      (RootEq P a b ∨ (RootEq P a x ∧ RootEq P y b) ∨
        (RootEq P a y ∧ RootEq P x b))) := by
  obtain ⟨hrx, hinv1, hkeys1, hreach1, hroot1⟩ := ufFind_call P x inv hx
  have hy1 : y ∈ mapKeys (ufFind P.length P x).2 := by rw [hkeys1]; exact hy
  obtain ⟨hry1, hinv2, hkeys2, hreach2, hroot2⟩ :=
    ufFind_call (ufFind P.length P x).2 y hinv1 hy1
  have hry : Reaches P y ((ufFind (ufFind P.length P x).2.length
      (ufFind P.length P x).2 y).1) := (hreach1 _ _).mp hry1
  obtain ⟨nx, hnx, hrootx⟩ := hrx
  obtain ⟨ny, hny, hrooty⟩ := hry
  -- abbreviations
  have hkeys21 : mapKeys (ufFind (ufFind P.length P x).2.length
      (ufFind P.length P x).2 y).2 = mapKeys P := by rw [hkeys2, hkeys1]
  have hreach21 : ∀ a s, Reaches ((ufFind (ufFind P.length P x).2.length
      (ufFind P.length P x).2 y).2) a s ↔ Reaches P a s := by
    intro a s
    rw [hreach2, hreach1]
  have hroot21 : ∀ z, isRootP ((ufFind (ufFind P.length P x).2.length
      (ufFind P.length P x).2 y).2) z ↔ isRootP P z := by
    intro z
    rw [hroot2, hroot1]
  unfold ufUnion
  dsimp only
  by_cases heq : (ufFind P.length P x).1 =
      (ufFind (ufFind P.length P x).2.length (ufFind P.length P x).2 y).1
  · rw [if_pos heq]
    have hxy : RootEq P x y := by
      refine ⟨(ufFind P.length P x).1, ⟨nx, hnx, hrootx⟩, ?_⟩
      rw [heq]
      exact ⟨ny, hny, hrooty⟩
    refine ⟨hinv2, hkeys21, ?_⟩
    intro a b
    rw [rootEq_congr P _ hreach21 a b]
    constructor
    · exact Or.inl
    · rintro (h | ⟨h1, h2⟩ | ⟨h1, h2⟩)
      · exact h
      · exact rootEq_trans P a x b h1 (rootEq_trans P x y b hxy h2)
      · exact rootEq_trans P a y b h1
          (rootEq_trans P y x b (rootEq_symm P x y hxy) h2)
  · rw [if_neg heq]
    -- common facts for both link directions
    have hpxk : (ufFind P.length P x).1 ∈ mapKeys ((ufFind
        (ufFind P.length P x).2.length (ufFind P.length P x).2 y).2) := by
      rw [hkeys21]
      have := iter_mem_keys P inv.closed x hx nx
      rwa [hnx] at this
    have hpyk : (ufFind (ufFind P.length P x).2.length
        (ufFind P.length P x).2 y).1 ∈ mapKeys ((ufFind
        (ufFind P.length P x).2.length (ufFind P.length P x).2 y).2) := by
      rw [hkeys21]
      have := iter_mem_keys P inv.closed y hy ny
      rwa [hny] at this
    have hrpx2 : isRootP ((ufFind (ufFind P.length P x).2.length
        (ufFind P.length P x).2 y).2) (ufFind P.length P x).1 :=
      (hroot21 _).mpr hrootx
    have hrpy2 : isRootP ((ufFind (ufFind P.length P x).2.length
        (ufFind P.length P x).2 y).2) (ufFind (ufFind P.length P x).2.length
          (ufFind P.length P x).2 y).1 :=
      (hroot21 _).mpr hrooty
    have hax : ∀ a, Reaches P a (ufFind P.length P x).1 ↔ RootEq P a x :=
      fun a => reaches_iff_rootEq P x _ a ⟨nx, hnx, hrootx⟩
    have hay : ∀ a, Reaches P a (ufFind (ufFind P.length P x).2.length
        (ufFind P.length P x).2 y).1 ↔ RootEq P a y :=
      fun a => reaches_iff_rootEq P y _ a ⟨ny, hny, hrooty⟩
    have hcase1 : ∀ a b, RootEq (mapSet ((ufFind (ufFind P.length P x).2.length
        (ufFind P.length P x).2 y).2) (ufFind P.length P x).1
        ((ufFind (ufFind P.length P x).2.length (ufFind P.length P x).2 y).1))
        a b ↔ (RootEq P a b ∨ (RootEq P a x ∧ RootEq P y b) ∨
          (RootEq P a y ∧ RootEq P x b)) := by
      intro a b
      rw [link_rootEq _ _ _ hinv2 hpxk hpyk hrpx2 hrpy2 heq a b]
      rw [rootEq_congr P _ hreach21 a b]
      constructor
      · rintro (h | ⟨h1, h2⟩ | ⟨h1, h2⟩)
        · exact Or.inl h
        · exact Or.inr (Or.inl ⟨(hax a).mp ((hreach21 a _).mp h1),
            rootEq_symm P b y ((hay b).mp ((hreach21 b _).mp h2))⟩)
        · exact Or.inr (Or.inr ⟨(hay a).mp ((hreach21 a _).mp h1),
            rootEq_symm P b x ((hax b).mp ((hreach21 b _).mp h2))⟩)
      · rintro (h | ⟨h1, h2⟩ | ⟨h1, h2⟩)
        · exact Or.inl h
        · exact Or.inr (Or.inl ⟨(hreach21 a _).mpr ((hax a).mpr h1),
            (hreach21 b _).mpr ((hay b).mpr (rootEq_symm P y b h2))⟩)
        · exact Or.inr (Or.inr ⟨(hreach21 a _).mpr ((hay a).mpr h1),
            (hreach21 b _).mpr ((hax b).mpr (rootEq_symm P x b h2))⟩)
    have hcase2 : ∀ a b, RootEq (mapSet ((ufFind (ufFind P.length P x).2.length
        (ufFind P.length P x).2 y).2) ((ufFind (ufFind P.length P x).2.length
        (ufFind P.length P x).2 y).1) (ufFind P.length P x).1)
        a b ↔ (RootEq P a b ∨ (RootEq P a x ∧ RootEq P y b) ∨
          (RootEq P a y ∧ RootEq P x b)) := by
      intro a b
      rw [link_rootEq _ _ _ hinv2 hpyk hpxk hrpy2 hrpx2
        (fun h => heq h.symm) a b]
      rw [rootEq_congr P _ hreach21 a b]
      constructor
      · rintro (h | ⟨h1, h2⟩ | ⟨h1, h2⟩)
        · exact Or.inl h
        · exact Or.inr (Or.inr ⟨(hay a).mp ((hreach21 a _).mp h1),
            rootEq_symm P b x ((hax b).mp ((hreach21 b _).mp h2))⟩)
        · exact Or.inr (Or.inl ⟨(hax a).mp ((hreach21 a _).mp h1),
            rootEq_symm P b y ((hay b).mp ((hreach21 b _).mp h2))⟩)
      · rintro (h | ⟨h1, h2⟩ | ⟨h1, h2⟩)
        · exact Or.inl h
        · exact Or.inr (Or.inr ⟨(hreach21 a _).mpr ((hax a).mpr h1),
            (hreach21 b _).mpr ((hay b).mpr (rootEq_symm P y b h2))⟩)
        · exact Or.inr (Or.inl ⟨(hreach21 a _).mpr ((hay a).mpr h1),
            (hreach21 b _).mpr ((hax b).mpr (rootEq_symm P x b h2))⟩)
    have hlink1 := link_spec ((ufFind (ufFind P.length P x).2.length
        (ufFind P.length P x).2 y).2) (ufFind P.length P x).1
        ((ufFind (ufFind P.length P x).2.length (ufFind P.length P x).2 y).1)
        hinv2 hpxk hpyk hrpx2 hrpy2 heq
    have hlink2 := link_spec ((ufFind (ufFind P.length P x).2.length
        (ufFind P.length P x).2 y).2) ((ufFind (ufFind P.length P x).2.length
        (ufFind P.length P x).2 y).1) (ufFind P.length P x).1
        hinv2 hpyk hpxk hrpy2 hrpx2 (fun h => heq h.symm)
    split
    · exact ⟨hlink1.1, by rw [hlink1.2.1, hkeys21], hcase1⟩
    · split
      · exact ⟨hlink2.1, by rw [hlink2.2.1, hkeys21], hcase2⟩
      · exact ⟨hlink2.1, by rw [hlink2.2.1, hkeys21], hcase2⟩

/-! # Lemmas about the `Linked` closure -/

theorem mem_pairHashes (pairs : List PairCandidate) (h : String) :
    h ∈ pairHashes pairs ↔ ∃ p ∈ pairs, p.A.codeHash = h ∨ p.B.codeHash = h := by
  unfold pairHashes
  rw [List.mem_flatMap]
  constructor
  · rintro ⟨p, hp, hmem⟩
    rcases List.mem_pair.mp hmem with h1 | h1
    · exact ⟨p, hp, Or.inl h1.symm⟩
    · exact ⟨p, hp, Or.inr h1.symm⟩
  · rintro ⟨p, hp, h1 | h1⟩
    · exact ⟨p, hp, by rw [h1]; exact List.mem_cons_self _ _⟩
    · exact ⟨p, hp, by rw [h1]; simp⟩

theorem pairHashes_append (done : List PairCandidate) (p : PairCandidate) :
    pairHashes (done ++ [p]) = pairHashes done ++ [p.A.codeHash, p.B.codeHash] := by
  unfold pairHashes
  rw [List.flatMap_append]
  simp

theorem linked_mono (pairs : List PairCandidate) (p : PairCandidate)
    (a b : String) (h : Linked pairs a b) : Linked (pairs ++ [p]) a b := by
  induction h with
  | edge hq => exact Linked.edge (List.mem_append.mpr (Or.inl hq))
  | symm _ ih => exact Linked.symm ih
  | trans _ _ ih1 ih2 => exact Linked.trans ih1 ih2

theorem linked_mem (pairs : List PairCandidate) (a b : String)
    (h : Linked pairs a b) : a ∈ pairHashes pairs ∧ b ∈ pairHashes pairs := by
  induction h with
  | edge hq =>
    exact ⟨(mem_pairHashes _ _).mpr ⟨_, hq, Or.inl rfl⟩,
      (mem_pairHashes _ _).mpr ⟨_, hq, Or.inr rfl⟩⟩
  | symm _ ih => exact ⟨ih.2, ih.1⟩
  | trans _ _ ih1 ih2 => exact ⟨ih1.1, ih2.2⟩

theorem linked_refl_of_mem (pairs : List PairCandidate) (h : String)
    (hm : h ∈ pairHashes pairs) : Linked pairs h h := by
  obtain ⟨p, hp, hcase⟩ := (mem_pairHashes pairs h).mp hm
  rcases hcase with h1 | h1
  · rw [← h1]
    exact Linked.trans (Linked.edge hp) (Linked.symm (Linked.edge hp))
  · rw [← h1]
    exact Linked.trans (Linked.symm (Linked.edge hp)) (Linked.edge hp)

theorem linked_snoc (done : List PairCandidate) (p : PairCandidate)
    (a b : String) :
    Linked (done ++ [p]) a b ↔
      ((Linked done a b ∨ (a = b ∧ a ∈ pairHashes (done ++ [p]))) ∨
        ((Linked done a p.A.codeHash ∨
            (a = p.A.codeHash ∧ a ∈ pairHashes (done ++ [p]))) ∧
          (Linked done p.B.codeHash b ∨
            (p.B.codeHash = b ∧ p.B.codeHash ∈ pairHashes (done ++ [p])))) ∨
        ((Linked done a p.B.codeHash ∨
            (a = p.B.codeHash ∧ a ∈ pairHashes (done ++ [p]))) ∧
          (Linked done p.A.codeHash b ∨
            (p.A.codeHash = b ∧ p.A.codeHash ∈ pairHashes (done ++ [p]))))) := by
  have hA : p.A.codeHash ∈ pairHashes (done ++ [p]) := by
    rw [mem_pairHashes]
    exact ⟨p, List.mem_append.mpr (Or.inr (List.mem_singleton_self p)), Or.inl rfl⟩
  have hB : p.B.codeHash ∈ pairHashes (done ++ [p]) := by
    rw [mem_pairHashes]
    exact ⟨p, List.mem_append.mpr (Or.inr (List.mem_singleton_self p)), Or.inr rfl⟩
  -- the auxiliary partial-equivalence relation
  let E : String → String → Prop := fun x y =>
    Linked done x y ∨ (x = y ∧ x ∈ pairHashes (done ++ [p]))
  have Esymm : ∀ x y, E x y → E y x := by
    rintro x y (h | ⟨rfl, hm⟩)
    · exact Or.inl (Linked.symm h)
    · exact Or.inr ⟨rfl, hm⟩
  have Etrans : ∀ x y z, E x y → E y z → E x z := by
    rintro x y z (h1 | ⟨rfl, hm⟩) (h2 | ⟨rfl, hm2⟩)
    · exact Or.inl (Linked.trans h1 h2)
    · exact Or.inl h1
    · exact Or.inl h2
    · exact Or.inr ⟨rfl, hm⟩
  have EtoL : ∀ x y, E x y → Linked (done ++ [p]) x y := by
    rintro x y (h | ⟨rfl, hm⟩)
    · exact linked_mono done p x y h
    · exact linked_refl_of_mem (done ++ [p]) x hm
  -- the target relation
  let R : String → String → Prop := fun x y =>
    E x y ∨ (E x p.A.codeHash ∧ E p.B.codeHash y) ∨
      (E x p.B.codeHash ∧ E p.A.codeHash y)
  have Rsymm : ∀ x y, R x y → R y x := by
    rintro x y (h | ⟨h1, h2⟩ | ⟨h1, h2⟩)
    · exact Or.inl (Esymm _ _ h)
    · exact Or.inr (Or.inr ⟨Esymm _ _ h2, Esymm _ _ h1⟩)
    · exact Or.inr (Or.inl ⟨Esymm _ _ h2, Esymm _ _ h1⟩)
  have Rtrans : ∀ x y z, R x y → R y z → R x z := by
    rintro x y z (hab | ⟨h1, h2⟩ | ⟨h1, h2⟩) (hbc | ⟨h3, h4⟩ | ⟨h3, h4⟩)
    · exact Or.inl (Etrans _ _ _ hab hbc)
    · exact Or.inr (Or.inl ⟨Etrans _ _ _ hab h3, h4⟩)
    · exact Or.inr (Or.inr ⟨Etrans _ _ _ hab h3, h4⟩)
    · exact Or.inr (Or.inl ⟨h1, Etrans _ _ _ h2 hbc⟩)
    · exact Or.inl (Etrans _ _ _
        (Etrans _ _ _ h1 (Esymm _ _ (Etrans _ _ _ h2 h3))) h4)
    · exact Or.inl (Etrans _ _ _ h1 h4)
    · exact Or.inr (Or.inr ⟨h1, Etrans _ _ _ h2 hbc⟩)
    · exact Or.inl (Etrans _ _ _ h1 h4)
    · exact Or.inl (Etrans _ _ _ h1
        (Etrans _ _ _ (Esymm _ _ (Etrans _ _ _ h2 h3)) h4))
  constructor
  · intro h
    induction h with
    | edge hq =>
      rcases List.mem_append.mp hq with hdone | hp
      · exact Or.inl (Or.inl (Linked.edge hdone))
      · rw [List.mem_singleton] at hp
        subst hp
        exact Or.inr (Or.inl ⟨Or.inr ⟨rfl, hA⟩, Or.inr ⟨rfl, hB⟩⟩)
    | symm _ ih => exact Rsymm _ _ ih
    | trans _ _ ih1 ih2 => exact Rtrans _ _ _ ih1 ih2
  · rintro (h | ⟨h1, h2⟩ | ⟨h1, h2⟩)
    · exact EtoL _ _ h
    · exact Linked.trans (EtoL _ _ h1)
        (Linked.trans (Linked.edge (List.mem_append.mpr (Or.inr
          (List.mem_singleton_self p)))) (EtoL _ _ h2))
    · exact Linked.trans (EtoL _ _ h1)
        (Linked.trans (Linked.symm (Linked.edge (List.mem_append.mpr (Or.inr
          (List.mem_singleton_self p))))) (EtoL _ _ h2))

/-! # Further Go-map lemmas used by the clustering proofs -/

theorem mapGet_set {α : Type} (m : List (String × α)) (d : α) (k k' : String)
    (v : α) :
    mapGet (mapSet m k v) d k' = if k' = k then v else mapGet m d k' := by
  rw [mapGet_eq_getD, mapFind?_set]
  by_cases h : k' = k
  · rw [if_pos h, if_pos h]
    rfl
  · rw [if_neg h, if_neg h, mapGet_eq_getD]

theorem mapKeys_set_nodup {α : Type} (m : List (String × α)) (k : String)
    (v : α) (h : (mapKeys m).Nodup) : (mapKeys (mapSet m k v)).Nodup := by
  rw [mapKeys_set]
  by_cases hk : mapHas m k
  · rw [if_pos hk]
    exact h
  · rw [if_neg hk]
    rw [List.nodup_append]
    refine ⟨h, List.nodup_singleton k, ?_⟩
    have : k ∉ mapKeys m := by
      rw [mem_mapKeys]
      exact fun hh => hk hh
    simpa [List.disjoint_singleton] using this

theorem mem_mapSet_cases {α : Type} (m : List (String × α)) (k : String)
    (v : α) (e : String × α) (he : e ∈ mapSet m k v) : e ∈ m ∨ e = (k, v) := by
  unfold mapSet at he
  by_cases h : m.any (fun x => x.1 = k)
  · rw [if_pos h] at he
    rw [List.mem_map] at he
    obtain ⟨e0, he0, heq⟩ := he
    by_cases h0 : e0.1 = k
    · rw [if_pos h0] at heq
      exact Or.inr heq.symm
    · rw [if_neg h0] at heq
      exact Or.inl (heq ▸ he0)
  · rw [if_neg h] at he
    rcases List.mem_append.mp he with h1 | h1
    · exact Or.inl h1
    · rw [List.mem_singleton] at h1
      exact Or.inr h1

theorem mapHas_of_mem {α : Type} (m : List (String × α)) (e : String × α)
    (he : e ∈ m) : mapHas m e.1 = true := by
  rw [mapHas_iff_exists]
  exact ⟨e, he, rfl⟩

/-! # The union phase computes exactly the connected components -/


theorem initKey_spec (P : List (String × String)) (R : List (String × Int))
    (k : String) (inv : UFInv P) :
    UFInv (initKey P R k).1 ∧
    (∀ z, z ∈ mapKeys (initKey P R k).1 ↔ (z ∈ mapKeys P ∨ z = k)) ∧
    (∀ a b, a ∈ mapKeys (initKey P R k).1 → b ∈ mapKeys (initKey P R k).1 →
      (RootEq (initKey P R k).1 a b ↔
        ((RootEq P a b ∧ a ∈ mapKeys P ∧ b ∈ mapKeys P) ∨ (a = b ∧ a = k)))) := by
  unfold initKey
  by_cases hk : mapHas P k
  · rw [if_pos hk]
    refine ⟨inv, ?_, ?_⟩
    · intro z
      constructor
      · exact Or.inl
      · rintro (h | rfl)
        · exact h
        · exact (mem_mapKeys P z).mpr hk
    · intro a b ha hb
      constructor
      · intro h
        exact Or.inl ⟨h, ha, hb⟩
      · rintro (⟨h, -, -⟩ | ⟨rfl, rfl⟩)
        · exact h
        · obtain ⟨r, hr⟩ := inv.rooted a ha
          exact ⟨r, hr, hr⟩
  · rw [if_neg hk]
    dsimp only
    have hkf : mapHas P k = false := Bool.eq_false_iff.mpr hk
    obtain ⟨finv, fkeys, fold, fkk, funiq, favoid⟩ := insert_fresh_spec P k inv hkf
    have hknot : k ∉ mapKeys P := by
      rw [mem_mapKeys, hkf]
      simp
    have hmem : ∀ z, z ∈ mapKeys (mapSet P k k) ↔ (z ∈ mapKeys P ∨ z = k) := by
      intro z
      rw [fkeys, List.mem_append, List.mem_singleton]
    refine ⟨finv, hmem, ?_⟩
    intro a b ha hb
    rcases (hmem a).mp ha with haP | rfl
    · rcases (hmem b).mp hb with hbP | rfl
      · constructor
        · rintro ⟨r, hra, hrb⟩
          exact Or.inl ⟨⟨r, (fold a haP r).mp hra, (fold b hbP r).mp hrb⟩, haP, hbP⟩
        · rintro (⟨⟨r, hra, hrb⟩, -, -⟩ | ⟨rfl, rfl⟩)
          · exact ⟨r, (fold a haP r).mpr hra, (fold b hbP r).mpr hrb⟩
          · exact absurd haP hknot
      · constructor
        · rintro ⟨r, hra, hrb⟩
          have hrk : r = b := funiq r hrb
          subst hrk
          have := favoid a haP r ((fold a haP r).mp hra)
          exact absurd rfl this
        · rintro (⟨-, -, hbP⟩ | ⟨rfl, -⟩)
          · exact absurd hbP hknot
          · exact absurd haP hknot
    · rcases (hmem b).mp hb with hbP | rfl
      · constructor
        · rintro ⟨r, hra, hrb⟩
          have hrk : r = a := funiq r hra
          subst hrk
          have := favoid b hbP r ((fold b hbP r).mp hrb)
          exact absurd rfl this
        · rintro (⟨-, haP, -⟩ | ⟨rfl, -⟩)
          · exact absurd haP hknot
          · exact absurd hbP hknot
      · exact ⟨fun _ => Or.inr ⟨rfl, rfl⟩, fun _ => ⟨b, fkk, fkk⟩⟩

theorem unionStep_inv (st : List (String × String) × List (String × Int))
    (done : List PairCandidate) (p : PairCandidate) (h : UnionInv st done) :
    UnionInv (unionStep st p) (done ++ [p]) := by
  have hA : p.A.codeHash ∈ pairHashes (done ++ [p]) := by
    rw [mem_pairHashes]
    exact ⟨p, List.mem_append.mpr (Or.inr (List.mem_singleton_self p)), Or.inl rfl⟩
  have hB : p.B.codeHash ∈ pairHashes (done ++ [p]) := by
    rw [mem_pairHashes]
    exact ⟨p, List.mem_append.mpr (Or.inr (List.mem_singleton_self p)), Or.inr rfl⟩
  obtain ⟨inv1, keys1, rel1⟩ := initKey_spec st.1 st.2 p.A.codeHash h.ufinv
  obtain ⟨inv2, keys2, rel2⟩ := initKey_spec (initKey st.1 st.2 p.A.codeHash).1
    (initKey st.1 st.2 p.A.codeHash).2 p.B.codeHash inv1
  have hA2 : p.A.codeHash ∈ mapKeys (initKey (initKey st.1 st.2 p.A.codeHash).1
      (initKey st.1 st.2 p.A.codeHash).2 p.B.codeHash).1 :=
    (keys2 _).mpr (Or.inl ((keys1 _).mpr (Or.inr rfl)))
  have hB2 : p.B.codeHash ∈ mapKeys (initKey (initKey st.1 st.2 p.A.codeHash).1
      (initKey st.1 st.2 p.A.codeHash).2 p.B.codeHash).1 :=
    (keys2 _).mpr (Or.inr rfl)
  obtain ⟨inv3, keys3, rel3⟩ :=
    ufUnion_spec (initKey (initKey st.1 st.2 p.A.codeHash).1
      (initKey st.1 st.2 p.A.codeHash).2 p.B.codeHash).1
      (initKey (initKey st.1 st.2 p.A.codeHash).1
      (initKey st.1 st.2 p.A.codeHash).2 p.B.codeHash).2
      p.A.codeHash p.B.codeHash inv2 hA2 hB2
  have key : ∀ a b, a ∈ mapKeys (initKey (initKey st.1 st.2 p.A.codeHash).1
      (initKey st.1 st.2 p.A.codeHash).2 p.B.codeHash).1 →
      b ∈ mapKeys (initKey (initKey st.1 st.2 p.A.codeHash).1
      (initKey st.1 st.2 p.A.codeHash).2 p.B.codeHash).1 →
      (RootEq (initKey (initKey st.1 st.2 p.A.codeHash).1
        (initKey st.1 st.2 p.A.codeHash).2 p.B.codeHash).1 a b ↔
        (Linked done a b ∨ (a = b ∧ a ∈ pairHashes (done ++ [p])))) := by
    intro a b ha hb
    rw [rel2 a b ha hb]
    constructor
    · rintro (⟨h1, ha1, hb1⟩ | ⟨rfl, rfl⟩)
      · rw [rel1 a b ha1 hb1] at h1
        rcases h1 with ⟨h0, ha0, hb0⟩ | ⟨rfl, rfl⟩
        · exact Or.inl ((h.rel a b ha0 hb0).mp h0)
        · exact Or.inr ⟨rfl, hA⟩
      · exact Or.inr ⟨rfl, hB⟩
    · rintro (hl | ⟨rfl, -⟩)
      · have hm := linked_mem done a b hl
        have ha0 : a ∈ mapKeys st.1 := (h.dom a).mpr hm.1
        have hb0 : b ∈ mapKeys st.1 := (h.dom b).mpr hm.2
        have ha1 : a ∈ mapKeys (initKey st.1 st.2 p.A.codeHash).1 :=
          (keys1 a).mpr (Or.inl ha0)
        have hb1 : b ∈ mapKeys (initKey st.1 st.2 p.A.codeHash).1 :=
          (keys1 b).mpr (Or.inl hb0)
        exact Or.inl ⟨(rel1 a b ha1 hb1).mpr
          (Or.inl ⟨(h.rel a b ha0 hb0).mpr hl, ha0, hb0⟩), ha1, hb1⟩
      · rcases (keys2 a).mp ha with ha1 | rfl
        · obtain ⟨r, hr⟩ := inv1.rooted a ha1
          exact Or.inl ⟨⟨r, hr, hr⟩, ha1, ha1⟩
        · exact Or.inr ⟨rfl, rfl⟩
  have hdef : unionStep st p =
      ufUnion (initKey (initKey st.1 st.2 p.A.codeHash).1
        (initKey st.1 st.2 p.A.codeHash).2 p.B.codeHash).1
        (initKey (initKey st.1 st.2 p.A.codeHash).1
        (initKey st.1 st.2 p.A.codeHash).2 p.B.codeHash).2
        p.A.codeHash p.B.codeHash := rfl
  rw [hdef]
  refine ⟨inv3, ?_, ?_⟩
  · intro z
    rw [keys3, pairHashes_append, List.mem_append]
    constructor
    · intro hz
      rcases (keys2 z).mp hz with hz1 | rfl
      · rcases (keys1 z).mp hz1 with hz0 | rfl
        · exact Or.inl ((h.dom z).mp hz0)
        · exact Or.inr (List.mem_cons_self _ _)
      · exact Or.inr (by simp)
    · rintro (hz | hz)
      · exact (keys2 z).mpr (Or.inl ((keys1 z).mpr (Or.inl ((h.dom z).mpr hz))))
      · rcases List.mem_pair.mp hz with rfl | rfl
        · exact (keys2 _).mpr (Or.inl ((keys1 _).mpr (Or.inr rfl)))
        · exact (keys2 _).mpr (Or.inr rfl)
  · intro a b ha hb
    rw [keys3] at ha hb
    rw [rel3 a b, linked_snoc, ← key a b ha hb, ← key a p.A.codeHash ha hA2,
        ← key p.B.codeHash b hB2 hb, ← key a p.B.codeHash ha hB2,
        ← key p.A.codeHash b hA2 hb]

theorem unionFold_inv (rest : List PairCandidate) :
    ∀ (st : List (String × String) × List (String × Int))
      (done : List PairCandidate), UnionInv st done →
      UnionInv (rest.foldl unionStep st) (done ++ rest) := by
  induction rest with
  | nil => intro st done h; simpa using h
  | cons q t ih =>
    intro st done h
    rw [List.foldl_cons]
    have h2 := ih (unionStep st q) (done ++ [q]) (unionStep_inv st done q h)
    rwa [List.append_assoc, List.singleton_append] at h2

theorem unionPhase_inv (pairs : List PairCandidate) :
    UnionInv (unionPhase pairs) pairs := by
  have base : UnionInv (([] : List (String × String)),
      ([] : List (String × Int))) [] := by
    refine ⟨⟨List.nodup_nil, ?_, ?_⟩, ?_, ?_⟩
    · intro k hk; exact absurd hk (List.not_mem_nil k)
    · intro k hk; exact absurd hk (List.not_mem_nil k)
    · intro z
      constructor
      · intro hz; exact absurd hz (List.not_mem_nil z)
      · intro hz; exact absurd hz (List.not_mem_nil z)
    · intro a b ha _; exact absurd ha (List.not_mem_nil a)
  simpa using unionFold_inv pairs ([], []) [] base

theorem rootD_reaches (pairs : List PairCandidate) (x : String)
    (hx : x ∈ pairHashes pairs) :
    Reaches (unionPhase pairs).1 x (rootD pairs x) := by
  have h := unionPhase_inv pairs
  exact (ufFind_call (unionPhase pairs).1 x h.ufinv ((h.dom x).mpr hx)).1

theorem rootD_eq_iff (pairs : List PairCandidate) (a b : String)
    (ha : a ∈ pairHashes pairs) (hb : b ∈ pairHashes pairs) :
    rootD pairs a = rootD pairs b ↔ Linked pairs a b := by
  have h := unionPhase_inv pairs
  have ha' := (h.dom a).mpr ha
  have hb' := (h.dom b).mpr hb
  constructor
  · intro heq
    refine (h.rel a b ha' hb').mp ⟨rootD pairs a, rootD_reaches pairs a ha, ?_⟩
    rw [heq]
    exact rootD_reaches pairs b hb
  · intro hl
    obtain ⟨r, hra, hrb⟩ := (h.rel a b ha' hb').mpr hl
    have h1 := reaches_unique (unionPhase pairs).1 a _ r (rootD_reaches pairs a ha) hra
    have h2 := reaches_unique (unionPhase pairs).1 b _ r (rootD_reaches pairs b hb) hrb
    rw [h1, h2]

theorem rootD_pair_mem (pairs : List PairCandidate) (z : String)
    (hz : z ∈ pairHashes pairs) :
    ∃ q ∈ pairs, rootD pairs q.A.codeHash = rootD pairs z := by
  obtain ⟨q, hq, hcase⟩ := (mem_pairHashes pairs z).mp hz
  rcases hcase with h1 | h1
  · exact ⟨q, hq, by rw [h1]⟩
  · refine ⟨q, hq, ?_⟩
    have hA : q.A.codeHash ∈ pairHashes pairs :=
      (mem_pairHashes _ _).mpr ⟨q, hq, Or.inl rfl⟩
    have hl : Linked pairs q.A.codeHash z := by
      rw [← h1]
      exact Linked.edge hq
    exact (rootD_eq_iff pairs _ _ hA hz).mpr hl


theorem parOk_base (pairs : List PairCandidate) :
    ParOk pairs (unionPhase pairs).1 :=
  ⟨(unionPhase_inv pairs).ufinv, rfl, fun _ _ => Iff.rfl⟩

theorem find_parOk (pairs : List PairCandidate) (Q : List (String × String))
    (h : ParOk pairs Q) (x : String) (hx : x ∈ pairHashes pairs) :
    (ufFind Q.length Q x).1 = rootD pairs x ∧
    ParOk pairs (ufFind Q.length Q x).2 := by
  have hxQ : x ∈ mapKeys Q := by
    rw [h.keys]
    exact ((unionPhase_inv pairs).dom x).mpr hx
  obtain ⟨hre, hinv, hkeys, hreach, -⟩ := ufFind_call Q x h.ufinv hxQ
  refine ⟨?_, hinv, by rw [hkeys, h.keys],
    fun y s => (hreach y s).trans (h.reach y s)⟩
  exact reaches_unique (unionPhase pairs).1 x _ _ ((h.reach x _).mp hre)
    (rootD_reaches pairs x hx)


theorem scoreStep_inv (pairs done : List PairCandidate) (st : GroupsState)
    (p : PairCandidate) (hp : p ∈ pairs) (h : ScoreInv pairs done st) :
    ScoreInv pairs (done ++ [p]) (scoreStep st p) := by
  have hA : p.A.codeHash ∈ pairHashes pairs :=
    (mem_pairHashes pairs _).mpr ⟨p, hp, Or.inl rfl⟩
  obtain ⟨hroot, hpar⟩ := find_parOk pairs st.parent h.par p.A.codeHash hA
  have hcm : (scoreStep st p).chunkMap =
      mapSet (mapSet st.chunkMap p.A.codeHash p.A) p.B.codeHash p.B := rfl
  have hgr : (scoreStep st p).groups =
      if mapHas st.groups (rootD pairs p.A.codeHash) then st.groups
      else mapSet st.groups (rootD pairs p.A.codeHash)
        { chunks := [], avgScore := 0,
          reason := "Code similarity detected based on semantic analysis" } := by
    show (if mapHas st.groups
        (ufFind st.parent.length st.parent p.A.codeHash).1 then st.groups
      else mapSet st.groups (ufFind st.parent.length st.parent p.A.codeHash).1
        { chunks := [], avgScore := 0,
          reason := "Code similarity detected based on semantic analysis" }) = _
    rw [hroot]
  have hsc : (scoreStep st p).groupScores =
      mapSet st.groupScores (rootD pairs p.A.codeHash)
        (mapGet st.groupScores [] (rootD pairs p.A.codeHash) ++ [p.score]) := by
    show mapSet st.groupScores
        (ufFind st.parent.length st.parent p.A.codeHash).1
        (mapGet st.groupScores []
          (ufFind st.parent.length st.parent p.A.codeHash).1 ++ [p.score]) = _
    rw [hroot]
  refine ⟨hpar, ?_, ?_, ?_, ?_, ?_, ?_, ?_⟩
  · intro z
    rw [hcm, mapHas_set, mapHas_set, pairHashes_append, List.mem_append]
    constructor
    · rintro ((hz | rfl) | rfl)
      · exact Or.inl ((h.ckeys z).mp hz)
      · exact Or.inr (List.mem_cons_self _ _)
      · exact Or.inr (by simp)
    · rintro (hz | hz)
      · exact Or.inl (Or.inl ((h.ckeys z).mpr hz))
      · rcases List.mem_pair.mp hz with rfl | rfl
        · exact Or.inl (Or.inr rfl)
        · exact Or.inr rfl
  · rw [hcm]
    exact mapKeys_set_nodup _ _ _ (mapKeys_set_nodup _ _ _ h.cnodup)
  · intro e he
    rw [hcm] at he
    rcases mem_mapSet_cases _ _ _ e he with he1 | rfl
    · rcases mem_mapSet_cases _ _ _ e he1 with he0 | rfl
      · obtain ⟨h1, q, hq, hcase⟩ := h.cvals e he0
        exact ⟨h1, q, List.mem_append.mpr (Or.inl hq), hcase⟩
      · exact ⟨rfl, p,
          List.mem_append.mpr (Or.inr (List.mem_singleton_self p)), Or.inl rfl⟩
    · exact ⟨rfl, p,
        List.mem_append.mpr (Or.inr (List.mem_singleton_self p)), Or.inr rfl⟩
  · intro r
    rw [hgr]
    by_cases hhas : mapHas st.groups (rootD pairs p.A.codeHash) = true
    · rw [if_pos hhas]
      constructor
      · intro hx
        obtain ⟨q, hq, he⟩ := (h.gkeys r).mp hx
        exact ⟨q, List.mem_append.mpr (Or.inl hq), he⟩
      · rintro ⟨q, hq, he⟩
        rcases List.mem_append.mp hq with h1 | h1
        · exact (h.gkeys r).mpr ⟨q, h1, he⟩
        · rw [List.mem_singleton] at h1
          subst h1
          rw [← he]
          exact hhas
    · rw [if_neg hhas]
      rw [mapHas_set]
      constructor
      · rintro (hx | rfl)
        · obtain ⟨q, hq, he⟩ := (h.gkeys r).mp hx
          exact ⟨q, List.mem_append.mpr (Or.inl hq), he⟩
        · exact ⟨p,
            List.mem_append.mpr (Or.inr (List.mem_singleton_self p)), rfl⟩
      · rintro ⟨q, hq, he⟩
        rcases List.mem_append.mp hq with h1 | h1
        · exact Or.inl ((h.gkeys r).mpr ⟨q, h1, he⟩)
        · rw [List.mem_singleton] at h1
          subst h1
          exact Or.inr he.symm
  · rw [hgr]
    by_cases hhas : mapHas st.groups (rootD pairs p.A.codeHash) = true
    · rw [if_pos hhas]
      exact h.gnodup
    · rw [if_neg hhas]
      exact mapKeys_set_nodup _ _ _ h.gnodup
  · intro e he
    rw [hgr] at he
    by_cases hhas : mapHas st.groups (rootD pairs p.A.codeHash) = true
    · rw [if_pos hhas] at he
      exact h.gvals e he
    · rw [if_neg hhas] at he
      rcases mem_mapSet_cases _ _ _ e he with he0 | rfl
      · exact h.gvals e he0
      · rfl
  · intro r
    rw [hsc, mapGet_set]
    by_cases hr : r = rootD pairs p.A.codeHash
    · subst hr
      rw [if_pos rfl, h.scores, List.filter_append, List.map_append]
      have hpos : decide (rootD pairs p.A.codeHash =
          rootD pairs p.A.codeHash) = true := decide_eq_true rfl
      rw [List.filter_cons, hpos, if_pos rfl, List.filter_nil]
      rfl
    · rw [if_neg hr, h.scores, List.filter_append, List.map_append]
      have hneg : decide (rootD pairs p.A.codeHash = r) = false := by
        simp only [decide_eq_false_iff_not]
        exact fun hh => hr hh.symm
      rw [List.filter_cons, hneg, if_neg (by simp), List.filter_nil]
      simp

theorem scoreFold_inv (pairs rest : List PairCandidate) :
    ∀ (done : List PairCandidate) (st : GroupsState),
      (∀ q ∈ rest, q ∈ pairs) → ScoreInv pairs done st →
      ScoreInv pairs (done ++ rest) (rest.foldl scoreStep st) := by
  induction rest with
  | nil => intro done st _ h; simpa using h
  | cons q t ih =>
    intro done st hsub h
    rw [List.foldl_cons]
    have h2 := ih (done ++ [q]) (scoreStep st q)
      (fun x hx => hsub x (List.mem_cons_of_mem q hx))
      (scoreStep_inv pairs done st q (hsub q (List.mem_cons_self q t)) h)
    rwa [List.append_assoc, List.singleton_append] at h2

theorem scorePhase_inv (pairs : List PairCandidate) :
    ScoreInv pairs pairs (scorePhase pairs (unionPhase pairs).1) := by
  have base : ScoreInv pairs []
      { parent := (unionPhase pairs).1, groups := [], groupScores := [],
        chunkMap := [] } := by
    refine ⟨parOk_base pairs, ?_, ?_, ?_, ?_, ?_, ?_, ?_⟩
    · intro z
      constructor
      · intro hz; simp [mapHas] at hz
      · intro hz; simp [pairHashes] at hz
    · simp [mapKeys]
    · intro e he; exact absurd he (List.not_mem_nil e)
    · intro r
      constructor
      · intro hx; simp [mapHas] at hx
      · rintro ⟨q, hq, -⟩; exact absurd hq (List.not_mem_nil q)
    · simp [mapKeys]
    · intro e he; exact absurd he (List.not_mem_nil e)
    · intro r; rfl
  have h2 := scoreFold_inv pairs pairs [] _ (fun q hq => hq) base
  rw [List.nil_append] at h2
  exact h2

theorem mapFind?_some_mem {α : Type} (m : List (String × α)) (k : String)
    (v : α) (h : mapFind? m k = some v) : (k, v) ∈ m := by
  unfold mapFind? at h
  cases hf : m.find? (fun e => e.1 = k) with
  | none => rw [hf] at h; simp at h
  | some e =>
    rw [hf] at h
    simp only [Option.map_some'] at h
    have hm := List.mem_of_find?_eq_some hf
    have hp := List.find?_some hf
    have h1 : e.1 = k := by simpa using hp
    have h2 : e.2 = v := Option.some.inj h
    have : e = (k, v) := Prod.ext h1 h2
    exact this ▸ hm

theorem mapFind?_of_mem_nodup {α : Type} (m : List (String × α))
    (e : String × α) (hn : (mapKeys m).Nodup) (he : e ∈ m) :
    mapFind? m e.1 = some e.2 := by
  induction m with
  | nil => exact absurd he (List.not_mem_nil e)
  | cons a t ih =>
    rcases List.mem_cons.mp he with rfl | ht
    · exact mapFind?_cons_of_pos _ _ _ rfl
    · have hkey : e.1 ∈ mapKeys t := List.mem_map.mpr ⟨e, ht, rfl⟩
      have hna : ¬ a.1 = e.1 := by
        have := (List.nodup_cons.mp hn).1
        exact fun hh => this (hh ▸ hkey)
      rw [mapFind?_cons_of_neg _ _ _ hna]
      exact ih (List.nodup_cons.mp hn).2 ht


theorem memberStep_inv (pairs : List PairCandidate)
    (cdone : List (String × CodeChunkPayload)) (st : GroupsState)
    (e : String × CodeChunkPayload) (he1 : e.1 ∈ pairHashes pairs)
    (h : MemInv pairs cdone st) : MemInv pairs (cdone ++ [e]) (memberStep st e) := by
  obtain ⟨hroot, hpar⟩ := find_parOk pairs st.parent h.par e.1 he1
  have hhas : mapHas st.groups (rootD pairs e.1) = true := by
    obtain ⟨q, hq, hqr⟩ := rootD_pair_mem pairs e.1 he1
    exact (h.gkeys _).mpr ⟨q, hq, hqr⟩
  obtain ⟨g0, hg0⟩ : ∃ g0, mapFind? st.groups (rootD pairs e.1) = some g0 := by
    rw [mapHas_eq_isSome] at hhas
    cases hf : mapFind? st.groups (rootD pairs e.1) with
    | none => rw [hf] at hhas; simp at hhas
    | some g => exact ⟨g, rfl⟩
  have hgr : (memberStep st e).groups =
      mapSet st.groups (rootD pairs e.1)
        { g0 with chunks := g0.chunks ++ [e.2] } := by
    show (match mapFind? st.groups (ufFind st.parent.length st.parent e.1).1 with
      | some g => mapSet st.groups (ufFind st.parent.length st.parent e.1).1
          { g with chunks := g.chunks ++ [e.2] }
      | none => st.groups) = _
    rw [hroot, hg0]
  refine ⟨hpar, ?_, ?_, ?_⟩
  · intro r
    rw [hgr, mapHas_set]
    constructor
    · rintro (hx | rfl)
      · exact (h.gkeys r).mp hx
      · exact (h.gkeys _).mp hhas
    · intro hx
      exact Or.inl ((h.gkeys r).mpr hx)
  · rw [hgr]
    exact mapKeys_set_nodup _ _ _ h.gnodup
  · intro r g hg
    rw [hgr, mapFind?_set] at hg
    by_cases hr : r = rootD pairs e.1
    · rw [if_pos hr] at hg
      obtain ⟨hc0, ha0, hr0⟩ := h.gfind (rootD pairs e.1) g0 hg0
      have hge : g = { g0 with chunks := g0.chunks ++ [e.2] } :=
        (Option.some.inj hg).symm
      subst hr
      refine ⟨?_, ?_, ?_⟩
      · have hpos : decide (rootD pairs e.1 = rootD pairs e.1) = true :=
          decide_eq_true rfl
        rw [hge, List.filter_append, List.map_append]
        show g0.chunks ++ [e.2] = _
        rw [hc0, List.filter_cons, hpos, if_pos rfl, List.filter_nil]
        rfl
      · rw [hge]
        exact ha0
      · rw [hge]
        exact hr0
    · rw [if_neg hr] at hg
      obtain ⟨hc0, ha0, hr0⟩ := h.gfind r g hg
      refine ⟨?_, ha0, hr0⟩
      rw [hc0, List.filter_append, List.map_append]
      have hneg : decide (rootD pairs e.1 = r) = false := by
        simp only [decide_eq_false_iff_not]
        exact fun hh => hr hh.symm
      rw [List.filter_cons, hneg, if_neg (by simp), List.filter_nil]
      simp

theorem memberFold_inv (pairs : List PairCandidate)
    (rest : List (String × CodeChunkPayload)) :
    ∀ (cdone : List (String × CodeChunkPayload)) (st : GroupsState),
      (∀ e ∈ rest, e.1 ∈ pairHashes pairs) → MemInv pairs cdone st →
      MemInv pairs (cdone ++ rest) (rest.foldl memberStep st) := by
  induction rest with
  | nil => intro cdone st _ h; simpa using h
  | cons e t ih =>
    intro cdone st hall h
    rw [List.foldl_cons]
    have h2 := ih (cdone ++ [e]) (memberStep st e)
      (fun x hx => hall x (List.mem_cons_of_mem e hx))
      (memberStep_inv pairs cdone st e (hall e (List.mem_cons_self e t)) h)
    rwa [List.append_assoc, List.singleton_append] at h2

theorem memberFold_groupScores (l : List (String × CodeChunkPayload)) :
    ∀ st : GroupsState, (l.foldl memberStep st).groupScores = st.groupScores := by
  induction l with
  | nil => intro st; rfl
  | cons e t ih =>
    intro st
    rw [List.foldl_cons]
    exact (ih (memberStep st e)).trans rfl

theorem memberFold_chunkMap (l : List (String × CodeChunkPayload)) :
    ∀ st : GroupsState, (l.foldl memberStep st).chunkMap = st.chunkMap := by
  induction l with
  | nil => intro st; rfl
  | cons e t ih =>
    intro st
    rw [List.foldl_cons]
    exact (ih (memberStep st e)).trans rfl

theorem memberPhase_inv (pairs : List PairCandidate) :
    MemInv pairs (scorePhase pairs (unionPhase pairs).1).chunkMap
      (memberPhase (scorePhase pairs (unionPhase pairs).1)) := by
  have hS := scorePhase_inv pairs
  have base : MemInv pairs [] (scorePhase pairs (unionPhase pairs).1) := by
    refine ⟨hS.par, hS.gkeys, hS.gnodup, ?_⟩
    intro r g hg
    have hmem := mapFind?_some_mem _ _ _ hg
    have hv : g = { chunks := [], avgScore := 0,
                    reason := "Code similarity detected based on semantic analysis" } :=
      hS.gvals (r, g) hmem
    subst hv
    exact ⟨rfl, rfl, rfl⟩
  have hall : ∀ e ∈ (scorePhase pairs (unionPhase pairs).1).chunkMap,
      e.1 ∈ pairHashes pairs := by
    intro e he
    exact (hS.ckeys e.1).mp (mapHas_of_mem _ e he)
  have h2 := memberFold_inv pairs
    (scorePhase pairs (unionPhase pairs).1).chunkMap []
    (scorePhase pairs (unionPhase pairs).1) hall base
  rw [List.nil_append] at h2
  exact h2

theorem avgEntry_fst (sc : List (String × List ℚ))
    (e : String × DuplicateGroup) : (avgEntry sc e).1 = e.1 := by
  unfold avgEntry
  cases mapFind? sc e.1 with
  | none => rfl
  | some scores =>
    dsimp only
    split <;> rfl

theorem mapKeys_avgPhase (st : GroupsState) :
    mapKeys (avgPhase st) = mapKeys st.groups := by
  unfold avgPhase mapKeys
  rw [List.map_map]
  exact List.map_congr_left (fun e _ => avgEntry_fst st.groupScores e)

theorem mapFind?_map_avgEntry (sc : List (String × List ℚ))
    (gs : List (String × DuplicateGroup)) (r : String) :
    mapFind? (gs.map (avgEntry sc)) r =
      (mapFind? gs r).map (fun g => (avgEntry sc (r, g)).2) := by
  induction gs with
  | nil => rfl
  | cons a t ih =>
    rw [List.map_cons]
    by_cases ha : a.1 = r
    · have hfst : (avgEntry sc a).1 = r := (avgEntry_fst sc a).trans ha
      rw [mapFind?_cons_of_pos _ _ _ hfst, mapFind?_cons_of_pos _ _ _ ha]
      subst ha
      rfl
    · have hfst : ¬ (avgEntry sc a).1 = r := by rw [avgEntry_fst]; exact ha
      rw [mapFind?_cons_of_neg _ _ _ hfst, mapFind?_cons_of_neg _ _ _ ha]
      exact ih

theorem mapFind?_avgPhase (st : GroupsState) (r : String) :
    mapFind? (avgPhase st) r =
      (mapFind? st.groups r).map (fun g => (avgEntry st.groupScores (r, g)).2) :=
  mapFind?_map_avgEntry st.groupScores st.groups r

theorem mapHas_avgPhase (st : GroupsState) (r : String) :
    mapHas (avgPhase st) r = mapHas st.groups r := by
  rw [mapHas_eq_isSome, mapHas_eq_isSome, mapFind?_avgPhase]
  cases mapFind? st.groups r <;> rfl

theorem finalGroups_keys (pairs : List PairCandidate) :
    (mapKeys (finalGroups pairs)).Nodup ∧
    (∀ r, mapHas (finalGroups pairs) r = true ↔
      ∃ q ∈ pairs, rootD pairs q.A.codeHash = r) := by
  have hM := memberPhase_inv pairs
  constructor
  · rw [show finalGroups pairs =
      avgPhase (memberPhase (scorePhase pairs (unionPhase pairs).1)) from rfl,
      mapKeys_avgPhase]
    exact hM.gnodup
  · intro r
    rw [show finalGroups pairs =
      avgPhase (memberPhase (scorePhase pairs (unionPhase pairs).1)) from rfl,
      mapHas_avgPhase]
    exact hM.gkeys r

theorem finalGroups_find (pairs : List PairCandidate) (r : String)
    (g : DuplicateGroup) (hg : mapFind? (finalGroups pairs) r = some g) :
    g.chunks = ((scorePhase pairs (unionPhase pairs).1).chunkMap.filter
        (fun e => decide (rootD pairs e.1 = r))).map (fun e => e.2) ∧
    g.reason = "Code similarity detected based on semantic analysis" ∧
    ((pairs.filter (fun q => decide (rootD pairs q.A.codeHash = r))) ≠ [] →
      g.avgScore =
        ((pairs.filter (fun q => decide (rootD pairs q.A.codeHash = r))).map
          (fun q => q.score)).sum /
        (((pairs.filter
          (fun q => decide (rootD pairs q.A.codeHash = r))).length : ℚ))) := by
  have hM := memberPhase_inv pairs
  have hS := scorePhase_inv pairs
  rw [show finalGroups pairs =
    avgPhase (memberPhase (scorePhase pairs (unionPhase pairs).1)) from rfl,
    mapFind?_avgPhase] at hg
  cases hf : mapFind?
      (memberPhase (scorePhase pairs (unionPhase pairs).1)).groups r with
  | none => rw [hf] at hg; simp at hg
  | some g0 =>
    rw [hf] at hg
    simp only [Option.map_some'] at hg
    have hge : (avgEntry
        (memberPhase (scorePhase pairs (unionPhase pairs).1)).groupScores
        (r, g0)).2 = g := Option.some.inj hg
    obtain ⟨hc0, ha0, hr0⟩ := hM.gfind r g0 hf
    have hsc2 : (memberPhase (scorePhase pairs (unionPhase pairs).1)).groupScores =
        (scorePhase pairs (unionPhase pairs).1).groupScores :=
      memberFold_groupScores _ _
    rw [hsc2] at hge
    unfold avgEntry at hge
    have hget := hS.scores r
    cases hm : mapFind?
        (scorePhase pairs (unionPhase pairs).1).groupScores r with
    | none =>
      have hnil : ((pairs.filter
          (fun q => decide (rootD pairs q.A.codeHash = r))).map
            (fun q => q.score)) = [] := by
        rw [← hget, mapGet_eq_getD, hm]
        rfl
      dsimp only at hge
      rw [hm] at hge
      dsimp only at hge
      refine ⟨?_, ?_, ?_⟩
      · rw [← hge]; exact hc0
      · rw [← hge]; exact hr0
      · intro hne
        exact absurd hnil (by
          intro hcon
          exact hne (List.map_eq_nil_iff.mp hcon))
    | some scores =>
      have hsc : scores = ((pairs.filter
          (fun q => decide (rootD pairs q.A.codeHash = r))).map
            (fun q => q.score)) := by
        rw [← hget, mapGet_eq_getD, hm]
        rfl
      dsimp only at hge
      rw [hm] at hge
      dsimp only at hge
      by_cases hlen : scores.length ≠ 0
      · rw [if_pos hlen] at hge
        dsimp only at hge
        refine ⟨?_, ?_, ?_⟩
        · rw [← hge]; exact hc0
        · rw [← hge]; exact hr0
        · intro _
          rw [← hge]
          show scores.sum / (scores.length : ℚ) = _
          rw [hsc, List.length_map]
      · rw [if_neg hlen] at hge
        dsimp only at hge
        refine ⟨?_, ?_, ?_⟩
        · rw [← hge]; exact hc0
        · rw [← hge]; exact hr0
        · intro hne
          exfalso
          apply hne
          have : scores = [] := List.length_eq_zero.mp (by omega)
          rw [this] at hsc
          exact (List.map_eq_nil_iff.mp hsc.symm)

theorem mapHas_exists_find {α : Type} (m : List (String × α)) (k : String)
    (h : mapHas m k = true) : ∃ v, mapFind? m k = some v := by
  rw [mapHas_eq_isSome] at h
  cases hf : mapFind? m k with
  | none => rw [hf] at h; simp at h
  | some v => exact ⟨v, rfl⟩

theorem buildDuplicateGroups_eq (pairs : List PairCandidate)
    (hne : pairs ≠ []) :
    buildDuplicateGroups pairs = (finalGroups pairs).map (fun e => e.2) := by
  unfold buildDuplicateGroups finalGroups
  rw [if_neg hne]

theorem mem_groupHashes_iff (pairs : List PairCandidate) (r : String)
    (g : DuplicateGroup) (hg : mapFind? (finalGroups pairs) r = some g)
    (a : String) :
    a ∈ groupHashes g ↔ (a ∈ pairHashes pairs ∧ rootD pairs a = r) := by
  obtain ⟨hc, -, -⟩ := finalGroups_find pairs r g hg
  have hS := scorePhase_inv pairs
  unfold groupHashes
  rw [hc, List.map_map]
  constructor
  · intro ha
    rw [List.mem_map] at ha
    obtain ⟨e, he, hee⟩ := ha
    rw [List.mem_filter] at he
    obtain ⟨hecm, hroot⟩ := he
    have hkey : e.2.codeHash = e.1 := (hS.cvals e hecm).1
    have ha1 : a = e.1 := by rw [← hee]; exact hkey
    constructor
    · rw [ha1]
      exact (hS.ckeys e.1).mp (mapHas_of_mem _ e hecm)
    · rw [ha1]
      exact of_decide_eq_true hroot
  · rintro ⟨hmem, hroot⟩
    have hhas : mapHas (scorePhase pairs (unionPhase pairs).1).chunkMap a
        = true := (hS.ckeys a).mpr hmem
    obtain ⟨e, he, he1⟩ := (mapHas_iff_exists _ _).mp hhas
    rw [List.mem_map]
    refine ⟨e, ?_, ?_⟩
    · rw [List.mem_filter]
      exact ⟨he, decide_eq_true (by rw [he1]; exact hroot)⟩
    · show e.2.codeHash = a
      rw [(hS.cvals e he).1, he1]

theorem groups_component_iff (pairs : List PairCandidate) (hne : pairs ≠ [])
    (a b : String) :
    (∃ g ∈ buildDuplicateGroups pairs,
        a ∈ groupHashes g ∧ b ∈ groupHashes g) ↔ Linked pairs a b := by
  have hkeys := finalGroups_keys pairs
  constructor
  · rintro ⟨g, hgmem, ha, hb⟩
    rw [buildDuplicateGroups_eq pairs hne, List.mem_map] at hgmem
    obtain ⟨e, he, hee⟩ := hgmem
    have hfind : mapFind? (finalGroups pairs) e.1 = some e.2 :=
      mapFind?_of_mem_nodup _ e hkeys.1 he
    rw [← hee] at ha hb
    obtain ⟨haP, haR⟩ := (mem_groupHashes_iff pairs e.1 e.2 hfind a).mp ha
    obtain ⟨hbP, hbR⟩ := (mem_groupHashes_iff pairs e.1 e.2 hfind b).mp hb
    exact (rootD_eq_iff pairs a b haP hbP).mp (haR.trans hbR.symm)
  · intro hl
    have hm := linked_mem pairs a b hl
    obtain ⟨q, hq, hqr⟩ := rootD_pair_mem pairs a hm.1
    have hhas : mapHas (finalGroups pairs) (rootD pairs a) = true :=
      (hkeys.2 _).mpr ⟨q, hq, hqr⟩
    obtain ⟨g0, hg0⟩ := mapHas_exists_find _ _ hhas
    refine ⟨g0, ?_, ?_, ?_⟩
    · rw [buildDuplicateGroups_eq pairs hne, List.mem_map]
      exact ⟨(rootD pairs a, g0), mapFind?_some_mem _ _ _ hg0, rfl⟩
    · exact (mem_groupHashes_iff pairs _ _ hg0 a).mpr ⟨hm.1, rfl⟩
    · exact (mem_groupHashes_iff pairs _ _ hg0 b).mpr
        ⟨hm.2, (rootD_eq_iff pairs b a hm.2 hm.1).mpr (Linked.symm hl)⟩

theorem countP_key_eq_one {α : Type} (m : List (String × α)) (r0 : String)
    (hn : (mapKeys m).Nodup) (hr : mapHas m r0 = true) :
    m.countP (fun e => decide (e.1 = r0)) = 1 := by
  induction m with
  | nil => simp [mapHas] at hr
  | cons a t ih =>
    have hn' : a.1 ∉ mapKeys t ∧ (mapKeys t).Nodup := by
      rw [mapKeys, List.map_cons] at hn
      exact ⟨(List.nodup_cons.mp hn).1, (List.nodup_cons.mp hn).2⟩
    rw [List.countP_cons]
    by_cases ha : a.1 = r0
    · have htail : t.countP (fun e => decide (e.1 = r0)) = 0 := by
        rw [List.countP_eq_zero]
        intro e he
        simp only [decide_eq_true_eq]
        intro hee
        exact hn'.1 (by
          rw [show a.1 = e.1 from ha.trans hee.symm]
          exact List.mem_map.mpr ⟨e, he, rfl⟩)
      rw [htail, decide_eq_true ha]
      rfl
    · have hhast : mapHas t r0 = true := by
        rw [← mapHas_cons_of_neg a t r0 ha]
        exact hr
      have hfalse : decide (a.1 = r0) = false := by
        simp only [decide_eq_false_iff_not]
        exact ha
      rw [hfalse, ih hn'.2 hhast]
      rfl

theorem groups_count_one (pairs : List PairCandidate) (hne : pairs ≠ [])
    (z : String) (hz : z ∈ pairHashes pairs) :
    (buildDuplicateGroups pairs).countP
      (fun g => decide (z ∈ groupHashes g)) = 1 := by
  rw [buildDuplicateGroups_eq pairs hne, List.countP_map]
  have hkeys := finalGroups_keys pairs
  have hstep : ∀ x ∈ finalGroups pairs,
      (((fun g => decide (z ∈ groupHashes g)) ∘ (fun e => e.2)) x = true ↔
        (fun e => decide (e.1 = rootD pairs z)) x = true) := by
    intro e he
    have hfind := mapFind?_of_mem_nodup _ e hkeys.1 he
    have hiff := mem_groupHashes_iff pairs e.1 e.2 hfind z
    show decide (z ∈ groupHashes e.2) = true ↔ decide (e.1 = rootD pairs z) = true
    rw [decide_eq_true_eq, decide_eq_true_eq, hiff]
    constructor
    · rintro ⟨-, h1⟩
      exact h1.symm
    · intro h1
      exact ⟨hz, h1.symm⟩
  rw [List.countP_congr hstep]
  obtain ⟨q, hq, hqr⟩ := rootD_pair_mem pairs z hz
  exact countP_key_eq_one _ _ hkeys.1 ((hkeys.2 _).mpr ⟨q, hq, hqr⟩)

theorem groups_chunks_facts (pairs : List PairCandidate) (hne : pairs ≠ []) :
    ∀ g ∈ buildDuplicateGroups pairs,
      (groupHashes g).Nodup ∧ g.chunks ≠ [] ∧
      ∀ c ∈ g.chunks, ∃ p ∈ pairs, p.A = c ∨ p.B = c := by
  intro g hgmem
  rw [buildDuplicateGroups_eq pairs hne, List.mem_map] at hgmem
  obtain ⟨e, he, hee⟩ := hgmem
  have hkeys := finalGroups_keys pairs
  have hfind := mapFind?_of_mem_nodup _ e hkeys.1 he
  obtain ⟨hc, -, -⟩ := finalGroups_find pairs e.1 e.2 hfind
  have hS := scorePhase_inv pairs
  subst hee
  refine ⟨?_, ?_, ?_⟩
  · unfold groupHashes
    rw [hc, List.map_map]
    have hmc : List.map ((fun c => c.codeHash) ∘ (fun e => e.2))
        ((scorePhase pairs (unionPhase pairs).1).chunkMap.filter
          (fun x => decide (rootD pairs x.1 = e.1))) =
        List.map (fun x => x.1)
        ((scorePhase pairs (unionPhase pairs).1).chunkMap.filter
          (fun x => decide (rootD pairs x.1 = e.1))) :=
      List.map_congr_left (fun x hx =>
        (hS.cvals x (List.mem_of_mem_filter hx)).1)
    rw [hmc]
    exact List.Nodup.sublist
      (List.Sublist.map _ (List.filter_sublist _)) hS.cnodup
  · have hhase : mapHas (finalGroups pairs) e.1 = true := mapHas_of_mem _ e he
    obtain ⟨q, hq, hqr⟩ := (hkeys.2 e.1).mp hhase
    have hAm : q.A.codeHash ∈ pairHashes pairs :=
      (mem_pairHashes _ _).mpr ⟨q, hq, Or.inl rfl⟩
    have hhascm : mapHas (scorePhase pairs (unionPhase pairs).1).chunkMap
        q.A.codeHash = true := (hS.ckeys _).mpr hAm
    obtain ⟨e0, he0, he01⟩ := (mapHas_iff_exists _ _).mp hhascm
    rw [hc]
    intro hcon
    rw [List.map_eq_nil_iff] at hcon
    have hin : e0 ∈ (scorePhase pairs (unionPhase pairs).1).chunkMap.filter
        (fun x => decide (rootD pairs x.1 = e.1)) :=
      List.mem_filter.mpr ⟨he0, decide_eq_true (by rw [he01]; exact hqr)⟩
    rw [hcon] at hin
    exact absurd hin (List.not_mem_nil e0)
  · intro c hcmem
    rw [hc, List.mem_map] at hcmem
    obtain ⟨e0, he0, hee0⟩ := hcmem
    obtain ⟨-, q, hq, hcase⟩ := hS.cvals e0 (List.mem_of_mem_filter he0)
    exact ⟨q, hq, by rw [← hee0]; exact hcase⟩

theorem groups_avg_facts (pairs : List PairCandidate) (hne : pairs ≠ []) :
    ∀ g ∈ buildDuplicateGroups pairs,
      (pairs.filter (fun q => decide (q.A.codeHash ∈ groupHashes g))) ≠ [] ∧
      g.avgScore =
        ((pairs.filter (fun q => decide (q.A.codeHash ∈ groupHashes g))).map
          (fun q => q.score)).sum /
        ((pairs.filter
          (fun q => decide (q.A.codeHash ∈ groupHashes g))).length : ℚ) := by
  intro g hgmem
  rw [buildDuplicateGroups_eq pairs hne, List.mem_map] at hgmem
  obtain ⟨e, he, hee⟩ := hgmem
  have hkeys := finalGroups_keys pairs
  have hfind := mapFind?_of_mem_nodup _ e hkeys.1 he
  obtain ⟨-, -, havg⟩ := finalGroups_find pairs e.1 e.2 hfind
  subst hee
  have hfilter : pairs.filter (fun q => decide (q.A.codeHash ∈ groupHashes e.2)) =
      pairs.filter (fun q => decide (rootD pairs q.A.codeHash = e.1)) := by
    apply List.filter_congr
    intro q hq
    have hiff := mem_groupHashes_iff pairs e.1 e.2 hfind q.A.codeHash
    have hAm : q.A.codeHash ∈ pairHashes pairs :=
      (mem_pairHashes _ _).mpr ⟨q, hq, Or.inl rfl⟩
    refine decide_eq_decide.mpr ?_
    rw [hiff]
    constructor
    · rintro ⟨-, h1⟩
      exact h1
    · intro h1
      exact ⟨hAm, h1⟩
  have hhase : mapHas (finalGroups pairs) e.1 = true := mapHas_of_mem _ e he
  obtain ⟨q, hq, hqr⟩ := (hkeys.2 e.1).mp hhase
  have hne2 : pairs.filter
      (fun q => decide (rootD pairs q.A.codeHash = e.1)) ≠ [] := by
    intro hcon
    have hin : q ∈ pairs.filter
        (fun q => decide (rootD pairs q.A.codeHash = e.1)) :=
      List.mem_filter.mpr ⟨hq, decide_eq_true hqr⟩
    rw [hcon] at hin
    exact absurd hin (List.not_mem_nil q)
  rw [hfilter]
  exact ⟨hne2, havg hne2⟩

theorem single_key_list {α : Type} (m : List (String × α)) (r0 : String)
    (hn : (mapKeys m).Nodup) (hall : ∀ e ∈ m, e.1 = r0)
    (hhas : mapHas m r0 = true) : ∃ v, m = [(r0, v)] := by
  cases m with
  | nil => simp [mapHas] at hhas
  | cons a t =>
    cases t with
    | nil =>
      obtain ⟨a1, a2⟩ := a
      have h1 : a1 = r0 := hall (a1, a2) (List.mem_cons_self _ _)
      subst h1
      exact ⟨a2, rfl⟩
    | cons b t2 =>
      exfalso
      have ha : a.1 = r0 := hall a (List.mem_cons_self _ _)
      have hb : b.1 = r0 := hall b (List.mem_cons_of_mem a (List.mem_cons_self _ _))
      have hnd : a.1 ∉ mapKeys (b :: t2) := by
        rw [mapKeys, List.map_cons] at hn
        exact (List.nodup_cons.mp hn).1
      exact hnd (by
        rw [ha, ← hb]
        exact List.mem_map.mpr ⟨b, List.mem_cons_self _ _, rfl⟩)

theorem buildGroups_xyz :
    ∃ g, buildDuplicateGroups pairsXYZ = [g] ∧
      groupHashes g = ["x", "y", "z"] ∧ g.chunks.length = 3 ∧
      g.avgScore = 47/50 := by
  have hne : pairsXYZ ≠ [] := List.cons_ne_nil _ _
  have hxm : "x" ∈ pairHashes pairsXYZ := (mem_pairHashes _ _).mpr
    ⟨{ A := chunkX, B := chunkY, score := 19/20 },
      List.mem_cons_self _ _, Or.inl rfl⟩
  have hym : "y" ∈ pairHashes pairsXYZ := (mem_pairHashes _ _).mpr
    ⟨{ A := chunkX, B := chunkY, score := 19/20 },
      List.mem_cons_self _ _, Or.inr rfl⟩
  have hzm : "z" ∈ pairHashes pairsXYZ := (mem_pairHashes _ _).mpr
    ⟨{ A := chunkY, B := chunkZ, score := 93/100 },
      List.mem_cons_of_mem _ (List.mem_cons_self _ _), Or.inr rfl⟩
  have ed1 : Linked pairsXYZ "x" "y" :=
    Linked.edge (p := { A := chunkX, B := chunkY, score := 19/20 })
      (List.mem_cons_self _ _)
  have ed2 : Linked pairsXYZ "y" "z" :=
    Linked.edge (p := { A := chunkY, B := chunkZ, score := 93/100 })
      (List.mem_cons_of_mem _ (List.mem_cons_self _ _))
  have hy : rootD pairsXYZ "x" = rootD pairsXYZ "y" :=
    (rootD_eq_iff pairsXYZ "x" "y" hxm hym).mpr ed1
  have hz2 : rootD pairsXYZ "y" = rootD pairsXYZ "z" :=
    (rootD_eq_iff pairsXYZ "y" "z" hym hzm).mpr ed2
  have hkeys := finalGroups_keys pairsXYZ
  have hhas : mapHas (finalGroups pairsXYZ) (rootD pairsXYZ "x") = true :=
    (hkeys.2 _).mpr ⟨{ A := chunkX, B := chunkY, score := 19/20 },
      List.mem_cons_self _ _, rfl⟩
  have hallkeys : ∀ e ∈ finalGroups pairsXYZ, e.1 = rootD pairsXYZ "x" := by
    intro e he
    obtain ⟨q, hq, hqr⟩ := (hkeys.2 e.1).mp (mapHas_of_mem _ e he)
    rcases List.mem_cons.mp hq with rfl | hq2
    · exact hqr.symm
    · rcases List.mem_cons.mp hq2 with rfl | hq3
      · exact (hy.trans hqr).symm
      · exact absurd hq3 (List.not_mem_nil _)
  obtain ⟨g, hgl⟩ := single_key_list (finalGroups pairsXYZ)
    (rootD pairsXYZ "x") hkeys.1 hallkeys hhas
  have hfind : mapFind? (finalGroups pairsXYZ) (rootD pairsXYZ "x") = some g := by
    rw [hgl]
    exact mapFind?_cons_of_pos _ _ _ rfl
  obtain ⟨hc, -, havg⟩ := finalGroups_find pairsXYZ (rootD pairsXYZ "x") g hfind
  have hcm : (scorePhase pairsXYZ (unionPhase pairsXYZ).1).chunkMap =
      [("x", chunkX), ("y", chunkY), ("z", chunkZ)] := rfl
  have hfilter : (scorePhase pairsXYZ (unionPhase pairsXYZ).1).chunkMap.filter
      (fun e => decide (rootD pairsXYZ e.1 = rootD pairsXYZ "x")) =
      [("x", chunkX), ("y", chunkY), ("z", chunkZ)] := by
    rw [hcm]
    apply List.filter_eq_self.mpr
    intro e he
    rcases List.mem_cons.mp he with rfl | he2
    · exact decide_eq_true rfl
    · rcases List.mem_cons.mp he2 with rfl | he3
      · exact decide_eq_true hy.symm
      · rcases List.mem_cons.mp he3 with rfl | he4
        · exact decide_eq_true (hy.trans hz2).symm
        · exact absurd he4 (List.not_mem_nil _)
  have hchunks : g.chunks = [chunkX, chunkY, chunkZ] := by
    rw [hc, hfilter]
    rfl
  have hfilterp : pairsXYZ.filter
      (fun q => decide (rootD pairsXYZ q.A.codeHash = rootD pairsXYZ "x")) =
      pairsXYZ := by
    apply List.filter_eq_self.mpr
    intro q hq
    rcases List.mem_cons.mp hq with rfl | hq2
    · exact decide_eq_true rfl
    · rcases List.mem_cons.mp hq2 with rfl | hq3
      · exact decide_eq_true hy.symm
      · exact absurd hq3 (List.not_mem_nil _)
  refine ⟨g, ?_, ?_, ?_, ?_⟩
  · rw [buildDuplicateGroups_eq pairsXYZ hne, hgl]
    rfl
  · rw [show groupHashes g = g.chunks.map (fun c => c.codeHash) from rfl,
      hchunks]
    rfl
  · rw [hchunks]
    rfl
  · have h2 := havg (by rw [hfilterp]; exact hne)
    rw [hfilterp] at h2
    rw [h2]
    show (List.map (fun q => q.score) pairsXYZ).sum / ((pairsXYZ.length : ℚ)) =
      47/50
    simp only [pairsXYZ, List.map_cons, List.map_nil, List.sum_cons,
      List.sum_nil, List.length_cons, List.length_nil]
    norm_num

/-- **C2**: for every set of confirmed pairs, each connected component of the
fingerprint graph becomes exactly one `DuplicateGroup` (two fingerprints share
a group iff they are linked, and each fingerprint lies in exactly one group),
the group holds every distinct chunk of its component (fingerprints are
distinct, membership is nonempty and drawn from the pairs), and the group's
aggregate score is the arithmetic mean of the scores of the pairs that
contributed an edge inside that component; in particular pairs (X,Y,0.95) and
(Y,Z,0.93) yield a single group of size 3 with aggregate score 0.94. -/
theorem duplicate_groups_are_components :
    (∀ pairs : List PairCandidate, ∀ a b : String,
        (∃ g ∈ buildDuplicateGroups pairs,
          a ∈ groupHashes g ∧ b ∈ groupHashes g) ↔ Linked pairs a b) ∧
    (∀ pairs : List PairCandidate, ∀ z ∈ pairHashes pairs,
        (buildDuplicateGroups pairs).countP
          (fun g => decide (z ∈ groupHashes g)) = 1) ∧
    (∀ pairs : List PairCandidate, ∀ g ∈ buildDuplicateGroups pairs,
        (groupHashes g).Nodup ∧ g.chunks ≠ [] ∧
        ∀ c ∈ g.chunks, ∃ p ∈ pairs, p.A = c ∨ p.B = c) ∧
    (∀ pairs : List PairCandidate, ∀ g ∈ buildDuplicateGroups pairs,
        pairs.filter (fun q => decide (q.A.codeHash ∈ groupHashes g)) ≠ [] ∧
        g.avgScore =
          ((pairs.filter (fun q => decide (q.A.codeHash ∈ groupHashes g))).map
            (fun q => q.score)).sum /
          ((pairs.filter
            (fun q => decide (q.A.codeHash ∈ groupHashes g))).length : ℚ)) ∧
    (∃ g, buildDuplicateGroups pairsXYZ = [g] ∧
        groupHashes g = ["x", "y", "z"] ∧ g.chunks.length = 3 ∧
        g.avgScore = 47/50) := by
  refine ⟨?_, ?_, ?_, ?_, buildGroups_xyz⟩
  · intro pairs a b
    by_cases hne : pairs = []
    · subst hne
      constructor
      · rintro ⟨g, hg, -, -⟩
        rw [show buildDuplicateGroups [] = [] from rfl] at hg
        exact absurd hg (List.not_mem_nil g)
      · intro hl
        exact absurd (linked_mem [] a b hl).1 (List.not_mem_nil a)
    · exact groups_component_iff pairs hne a b
  · intro pairs z hz
    have hne : pairs ≠ [] := by
      intro hcon
      subst hcon
      exact absurd hz (List.not_mem_nil z)
    exact groups_count_one pairs hne z hz
  · intro pairs g hg
    have hne : pairs ≠ [] := by
      intro hcon
      subst hcon
      rw [show buildDuplicateGroups [] = [] from rfl] at hg
      exact absurd hg (List.not_mem_nil g)
    exact groups_chunks_facts pairs hne g hg
  · intro pairs g hg
    have hne : pairs ≠ [] := by
      intro hcon
      subst hcon
      rw [show buildDuplicateGroups [] = [] from rfl] at hg
      exact absurd hg (List.not_mem_nil g)
    exact groups_avg_facts pairs hne g hg

theorem duplicate_groups_are_components_witness :
    (∃ g ∈ buildDuplicateGroups pairsXYZ,
        "x" ∈ groupHashes g ∧ "z" ∈ groupHashes g) ∧
    (buildDuplicateGroups pairsXYZ).countP
      (fun g => decide ("x" ∈ groupHashes g)) = 1 := by
  constructor
  · exact (duplicate_groups_are_components.1 pairsXYZ "x" "z").mpr
      (Linked.trans
        (Linked.edge (p := { A := chunkX, B := chunkY, score := 19/20 })
          (List.mem_cons_self _ _))
        (Linked.edge (p := { A := chunkY, B := chunkZ, score := 93/100 })
          (List.mem_cons_of_mem _ (List.mem_cons_self _ _))))
  · exact duplicate_groups_are_components.2.1 pairsXYZ "x"
      ((mem_pairHashes _ _).mpr
        ⟨{ A := chunkX, B := chunkY, score := 19/20 },
          List.mem_cons_self _ _, Or.inl rfl⟩)

end Codebase
